import Mathlib

/-!
Verification of the language-caption-player backend (ASR → subtitle →
translation pipeline) against its natural-language specification.

The Python sources under `backend/` are shallowly embedded below:
strings are `List Char`, Python floats are modelled as exact rationals
(`ℚ`), dictionaries `{"text": ..., "timestamp": (start, end)}` become the
`Seg` structure, and the stateful translator object becomes an explicit
state-passing machine with an operation trace.
-/

namespace CaptionPlayer

/-! ## Basic Python string primitives

Python `str.split()` / `str.strip()` semantics over ASCII whitespace,
modelled at the character level. -/

/-- Python whitespace class (`\s`, ASCII part): space, tab, newline,
carriage return, vertical tab, form feed. -/
def isSpace (c : Char) : Bool :=
  c = ' ' || c = '\t' || c = '\n' || c = '\r' || c = '\x0b' || c = '\x0c'

/-- Worker for `pySplit`: `cur` is the current word accumulated in reverse. -/
def pySplitAux : List Char → List Char → List (List Char)
  | [], cur => if cur = [] then [] else [cur.reverse]
  | c :: r, cur =>
    if isSpace c then
      (if cur = [] then pySplitAux r [] else cur.reverse :: pySplitAux r [])
    else pySplitAux r (c :: cur)

/-- Python `text.split()` (no argument): split on runs of whitespace,
discarding empty pieces. -/
def pySplit (l : List Char) : List (List Char) :=
  pySplitAux l []

/-- Python `text.strip()`: drop leading and trailing whitespace. -/
def pyStrip (l : List Char) : List Char :=
  ((l.dropWhile isSpace).reverse.dropWhile isSpace).reverse

/-- Python `' '.join(ws)`. -/
def joinSpace : List (List Char) → List Char
  | [] => []
  | [w] => w
  | w :: ws => w ++ ' ' :: joinSpace ws

/-- Number of words of a text, Python `len(text.split())`. -/
def wordCount (l : List Char) : Nat :=
  (pySplit l).length

/-! ## Chunk Planner (backend/asr.py, `ASRProcessor.transcribe`)

The transcription loop slices the sample buffer into windows of
`chunk_samples = int(MAX_ALIGN_SEC * sr)` samples via
`range(0, len(data), chunk_samples)` and skips any window shorter than
`sr * 0.5` samples.  Only the length of the buffer matters for the
window layout, so the buffer is represented by its sample count `n`. -/

/-- Python `range(start, stop, step)` for a positive step: the values
`start + i * step` that are below `stop`. -/
def pyRange (start stop step : Nat) : List Nat :=
  (List.range ((stop - start + step - 1) / step)).map (fun i => start + i * step)

/-- Window size in samples: `chunk_samples = int(MAX_ALIGN_SEC * sr)`
(asr.py line 172), parameterised by the window length in seconds. -/
def chunkSamples (windowSec sr : Nat) : Nat :=
  windowSec * sr

/-- All candidate windows `(start_sample, length)` visited by the
transcription loop; the slice `data[s : s + c]` of an `n`-sample buffer
has `min c (n - s)` samples. -/
def candidateWindows (n c : Nat) : List (Nat × Nat) :=
  (pyRange 0 n c).map (fun s => (s, min c (n - s)))

/-- The windows actually processed: the loop body executes
`if len(chunk) < sr * 0.5: continue` (asr.py line 180), so a window is
kept exactly when its sample count is not below `sr * 0.5`; the slice
`data[s : s + c]` has `min c (n - s)` samples. -/
def keptWindows (n sr c : Nat) : List (Nat × Nat) :=
  (pyRange 0 n c).filterMap (fun s =>
    if ((min c (n - s) : Nat) : ℚ) < (sr : ℚ) * (1 / 2) then none
    else some (s, min c (n - s)))

/-- Start and end time of a window in seconds (`start_sample / sr`). -/
def windowTimes (sr : Nat) (w : Nat × Nat) : ℚ × ℚ :=
  ((w.1 : ℚ) / (sr : ℚ), ((w.1 + w.2 : Nat) : ℚ) / (sr : ℚ))

theorem pyRange_zero_length (n c : Nat) :
    (pyRange 0 n c).length = (n + c - 1) / c := by
  simp [pyRange]

theorem candidateWindows_length (n c : Nat) :
    (candidateWindows n c).length = (n + c - 1) / c := by
  simp [candidateWindows, pyRange]

theorem candidateWindows_starts_increasing (n c : Nat) (hc : 0 < c) :
    (candidateWindows n c).Pairwise (fun a b => a.1 < b.1) := by
  unfold candidateWindows pyRange
  rw [List.map_map]
  refine List.Pairwise.map _ ?_ (List.pairwise_lt_range _)
  intro a b hab
  simpa using (Nat.mul_lt_mul_right hc).mpr hab

theorem keptWindows_eq_filter (n sr c : Nat) :
    keptWindows n sr c =
      (candidateWindows n c).filter (fun w => (sr : ℚ) * (1 / 2) ≤ (w.2 : ℚ)) := by
  unfold keptWindows candidateWindows
  induction pyRange 0 n c with
  | nil => rfl
  | cons s rest ih =>
    simp only [List.filterMap_cons, List.map_cons, List.filter_cons]
    by_cases h : ((min c (n - s) : Nat) : ℚ) < (sr : ℚ) * (1 / 2)
    · rw [if_pos h, ih, if_neg (by simpa using not_le.mpr h)]
    · rw [if_neg h, ih, if_pos (by simpa using not_lt.mp h)]

theorem pyRange_scenario :
    pyRange 0 (95 * 16000) (chunkSamples 90 16000) = [0, 1440000] := by
  norm_num [pyRange, chunkSamples]
  rfl

theorem keptWindows_scenario :
    keptWindows (95 * 16000) 16000 (chunkSamples 90 16000) =
      [(0, 1440000), (1440000, 80000)] := by
  unfold keptWindows
  rw [pyRange_scenario]
  norm_num [List.filterMap_cons, chunkSamples, Nat.min_def]

theorem windowTimes_scenario :
    (keptWindows (95 * 16000) 16000 (chunkSamples 90 16000)).map (windowTimes 16000) =
      [((0 : ℚ), (90 : ℚ)), ((90 : ℚ), (95 : ℚ))] := by
  rw [keptWindows_scenario]
  norm_num [windowTimes]

theorem candidateWindows_length_ceil (n c : Nat) (hc : 0 < c) :
    ((candidateWindows n c).length : ℤ) = ⌈(n : ℚ) / (c : ℚ)⌉ := by
  rw [candidateWindows_length]
  set z := (n + c - 1) / c with hzdef
  have hcq : (0 : ℚ) < (c : ℚ) := by exact_mod_cast hc
  have hdm : c * z + (n + c - 1) % c = n + c - 1 := Nat.div_add_mod (n + c - 1) c
  have hm : (n + c - 1) % c < c := Nat.mod_lt _ hc
  have h1 : n ≤ c * z := by omega
  have h2 : c * z < n + c := by omega
  have h1q : (n : ℚ) ≤ (c : ℚ) * (z : ℚ) := by exact_mod_cast h1
  have h2q : (c : ℚ) * (z : ℚ) < (n : ℚ) + (c : ℚ) := by exact_mod_cast h2
  rw [eq_comm, Int.ceil_eq_iff]
  refine ⟨?_, ?_⟩
  · rw [lt_div_iff₀ hcq]
    push_cast
    linarith
  · rw [div_le_iff₀ hcq]
    push_cast
    linarith

/-- C4: for every sample buffer, sample rate and window length, the Chunk
Planner produces `ceil(len(buffer) / window_samples)` candidate windows in
increasing sample-index order, keeps exactly those whose sample count is at
least `0.5 * sample_rate` and drops the rest entirely (no merging); in
particular a 95-second buffer at window = 90 s, rate = 16000 yields the two
chunks `[0, 90)` and `[90, 95)`, the 5-second trailing chunk being kept. -/
theorem C4_chunk_planner :
    (∀ n c : Nat, 0 < c →
        ((candidateWindows n c).length : ℤ) = ⌈(n : ℚ) / (c : ℚ)⌉ ∧
        (candidateWindows n c).Pairwise (fun a b => a.1 < b.1)) ∧
    (∀ n sr c : Nat, keptWindows n sr c =
        (candidateWindows n c).filter (fun w => (sr : ℚ) * (1 / 2) ≤ (w.2 : ℚ))) ∧
    keptWindows (95 * 16000) 16000 (chunkSamples 90 16000) =
      [(0, 1440000), (1440000, 80000)] ∧
    (keptWindows (95 * 16000) 16000 (chunkSamples 90 16000)).map (windowTimes 16000) =
      [((0 : ℚ), (90 : ℚ)), ((90 : ℚ), (95 : ℚ))] :=
  ⟨fun n c hc => ⟨candidateWindows_length_ceil n c hc,
      candidateWindows_starts_increasing n c hc⟩,
    keptWindows_eq_filter, keptWindows_scenario, windowTimes_scenario⟩

/-- Witness for C4 at the concrete 95-second buffer. -/
theorem C4_chunk_planner_witness :
    ((candidateWindows 1520000 1440000).length : ℤ) =
        ⌈(1520000 : ℚ) / (1440000 : ℚ)⌉ ∧
    (candidateWindows 1520000 1440000).Pairwise (fun a b => a.1 < b.1) :=
  C4_chunk_planner.1 1520000 1440000 (by norm_num)

/-! ## Data model: subtitle segments

A Python segment dict `{"text": str, "timestamp": (start, end)}`; the end
timestamp may be `None` (`segments_to_srt` substitutes `start + 4.0`). -/

/-- One subtitle segment. -/
structure Seg where
  text : List Char
  start : ℚ
  stop : Option ℚ
deriving DecidableEq, Repr

/-! ## Model Lifecycle Manager (backend/translator.py, class `Translator`)

The handle state is the pair of the mutable fields `model_id` and `model`
(`tokenizer` always changes together with `model` and is omitted).  Each
operation additionally returns the trace of actual device load / unload
events it performs, so that "exactly one implicit unload and zero implicit
loads" is a statement about the trace. -/

/-- A device-level model event: an actual load of a given model id, or an
actual unload. -/
inductive TrOp where
  | load (id : String)
  | unload
deriving DecidableEq, Repr

/-- The translator handle: `model_id` plus the loaded instance.
`model = some id` models `self.model` holding an instance of model `id`;
`model = none` models `self.model is None` (the Unloaded state). -/
structure TrState where
  model_id : String
  model : Option String
deriving DecidableEq, Repr

namespace Translator

/-- Translator.load: allocates the model for the current `model_id`. -/
def load (s : TrState) : TrState × List TrOp :=
  (TrState.mk s.model_id (some s.model_id), [TrOp.load s.model_id])

/-- Translator._unload: frees the model if one is loaded, otherwise no-op. -/
def unload_ (s : TrState) : TrState × List TrOp :=
  if s.model = none then (s, [])
  else (TrState.mk s.model_id none, [TrOp.unload])

/-- Translator.unload (public API): delegates to `_unload`. -/
def unload (s : TrState) : TrState × List TrOp :=
  unload_ s

/-- Translator.set_model_id: if the id changes, immediately `_unload` and
record the new id (the next use loads on demand). -/
def set_model_id (s : TrState) (id : String) : TrState × List TrOp :=
  if s.model_id ≠ id then
    let r := unload_ s
    (TrState.mk id r.1.model, r.2)
  else (s, [])

/-- Translator._ensure_loaded: loads if and only if no model is loaded. -/
def ensure_loaded (s : TrState) : TrState × List TrOp :=
  if s.model = none then load s else (s, [])

end Translator

/-- C7: reassigning a loaded handle's `model_id` (to a different id)
performs exactly one implicit unload and zero implicit loads before
recording the new id, leaving the handle Unloaded with the new id, and the
next `ensure_loaded` performs the actual load of the new model. -/
theorem C7_model_switch (s : TrState) (id newId : String)
    (hloaded : s.model = some id) (hne : s.model_id ≠ newId) :
    (Translator.set_model_id s newId).1 = TrState.mk newId none ∧
    (Translator.set_model_id s newId).2 = [TrOp.unload] ∧
    (Translator.ensure_loaded (Translator.set_model_id s newId).1).1 =
      TrState.mk newId (some newId) ∧
    (Translator.ensure_loaded (Translator.set_model_id s newId).1).2 =
      [TrOp.load newId] := by
  have h1 : Translator.set_model_id s newId = (TrState.mk newId none, [TrOp.unload]) := by
    unfold Translator.set_model_id Translator.unload_
    rw [if_pos hne, if_neg (by simp [hloaded])]
  refine ⟨by rw [h1], by rw [h1], ?_, ?_⟩ <;>
    rw [h1] <;> simp [Translator.ensure_loaded, Translator.load]

/-- Witness for C7: switching a loaded `Qwen/Qwen3-1.7B` handle to
`Qwen/Qwen3-4B`. -/
theorem C7_model_switch_witness :
    (Translator.set_model_id (TrState.mk "a" (some "a")) "b").1 =
      TrState.mk "b" none ∧
    (Translator.set_model_id (TrState.mk "a" (some "a")) "b").2 = [TrOp.unload] ∧
    (Translator.ensure_loaded
        (Translator.set_model_id (TrState.mk "a" (some "a")) "b").1).1 =
      TrState.mk "b" (some "b") ∧
    (Translator.ensure_loaded
        (Translator.set_model_id (TrState.mk "a" (some "a")) "b").1).2 =
      [TrOp.load "b"] :=
  C7_model_switch (TrState.mk "a" (some "a")) "a" "b" rfl (by decide)

/-! ## Translation Orchestrator (backend/server.py, `translate` endpoint)

The `stream()` async generator of the `/translate` endpoint, embedded as a
pure function.  The translator collaborator (`translator.translate`) is an
oracle `tr : text → context → Except message translation`; `translator.load`
may fail, which is modelled by the `loadRes` parameter.  The output records
the emitted SSE events, every `(text, context)` argument pair passed to the
collaborator, the saved japanese-SRT content (`none` when no file is
written), and the final translator handle state. -/

/-- A server-sent event of the progress stream (server.py docstring,
lines 203-207); the `srt_path` payload of `done` is not modelled. -/
inductive Event where
  | loading_model
  | translating (current total : Nat)
  | error (message : List Char)
  | done (total : Nat)
deriving DecidableEq, Repr

/-- An invocation of the translator collaborator: the segment text and the
optional context list passed alongside it. -/
abbrev Call := List Char × Option (List (List Char × List Char))

/-- The translator collaborator: deterministic oracle from (text, context)
to a translation or a raised error. -/
abbrev Tr := List Char → Option (List (List Char × List Char)) →
  Except (List Char) (List Char)

/-- Sliding context window bound (server.py line 232). -/
def CONTEXT_WINDOW : Nat := 5

/-- Python `l[-n:]` for `n > 0`: the last `n` elements (all of them when
the list is shorter). -/
def lastN (n : Nat) (l : List α) : List α :=
  l.drop (l.length - n)

/-- Result of the per-segment translation loop (server.py lines 235-248). -/
structure LoopOut where
  events : List Event
  calls : List Call
  result : Option (List Seg)

/-- The context argument of one call:
`ctx = context_history[-CONTEXT_WINDOW:] or None` (server.py line 237). -/
def ctxArg (hist : List (List Char × List Char)) :
    Option (List (List Char × List Char)) :=
  if lastN CONTEXT_WINDOW hist = [] then none else some (lastN CONTEXT_WINDOW hist)

/-- The `for i, seg in enumerate(segments)` loop: before each call the last
`CONTEXT_WINDOW` history pairs are taken (`context_history[-CONTEXT_WINDOW:]
or None`); a collaborator error yields one error event and stops; on success
the new pair is appended to the history and the translated segment
accumulated. -/
def translateLoop (tr : Tr) (total : Nat) :
    List Seg → Nat → List (List Char × List Char) → List Seg → LoopOut
  | [], _, _, acc => LoopOut.mk [] [] (some acc)
  | seg :: rest, i, hist, acc =>
    match tr seg.text (ctxArg hist) with
    | Except.error e => LoopOut.mk [Event.error e] [(seg.text, ctxArg hist)] none
    | Except.ok jp =>
        let r := translateLoop tr total rest (i + 1) (hist ++ [(seg.text, jp)])
          (acc ++ [Seg.mk jp seg.start seg.stop])
        LoopOut.mk (Event.translating (i + 1) total :: r.events)
          ((seg.text, ctxArg hist) :: r.calls) r.result

/-- Result of one whole `/translate` request stream. -/
structure StreamOut where
  events : List Event
  calls : List Call
  written : Option (List Seg)
  final : TrState

/-- The part of `stream()` after the model is known to be loaded: emit
`translating 0/total`, run the loop, unload in the `finally`, and only on
success save the japanese SRT and emit `done`. -/
def streamBody (tr : Tr) (segs : List Seg) (total : Nat) (t : TrState)
    (pre : List Event) : StreamOut :=
  let r := translateLoop tr total segs 0 [] []
  let t1 := (Translator.unload t).1
  match r.result with
  | none => StreamOut.mk (pre ++ Event.translating 0 total :: r.events) r.calls none t1
  | some out =>
      StreamOut.mk (pre ++ Event.translating 0 total :: r.events ++ [Event.done total])
        r.calls (some out) t1

/-- The whole `stream()` generator: when the translator model is not loaded,
emit `loading_model` and load it (a load failure emits one error event and
ends the stream with nothing written and nothing loaded). -/
def translateStream (tr : Tr) (loadRes : Except (List Char) Unit)
    (segs : List Seg) (t0 : TrState) : StreamOut :=
  if t0.model = none then
    match loadRes with
    | Except.error e =>
        StreamOut.mk [Event.loading_model, Event.error e] [] none t0
    | Except.ok _ =>
        streamBody tr segs segs.length (Translator.load t0).1 [Event.loading_model]
  else streamBody tr segs segs.length t0 []

/-- Whether an event is an `error` event. -/
def Event.isError : Event → Bool
  | Event.error _ => true
  | _ => false

/-- Whether the collaborator succeeds on a given recorded call. -/
def callOk (tr : Tr) (c : Call) : Bool :=
  match tr c.1 c.2 with
  | Except.ok _ => true
  | Except.error _ => false

/-- The translation the collaborator returns for a successful call. -/
def okText (tr : Tr) (c : Call) : List Char :=
  match tr c.1 c.2 with
  | Except.ok jp => jp
  | Except.error _ => []

/-- The `(source, translated)` pair the loop appends to the history after a
successful call. -/
def callPair (tr : Tr) (c : Call) : List Char × List Char :=
  (c.1, okText tr c)

/-- The context list actually seen by the collaborator (`None` behaves as
the empty context in `Translator.translate`). -/
def ctxList : Option (List α) → List α
  | none => []
  | some l => l

theorem ctxList_ctxArg (hist : List (List Char × List Char)) :
    ctxList (ctxArg hist) = lastN CONTEXT_WINDOW hist := by
  unfold ctxArg
  by_cases h : lastN CONTEXT_WINDOW hist = []
  · rw [if_pos h, h]
    rfl
  · rw [if_neg h]
    rfl

theorem translateLoop_ok (tr : Tr) (total : Nat) :
    ∀ segs i hist acc out,
      (translateLoop tr total segs i hist acc).result = some out →
      ((translateLoop tr total segs i hist acc).events.filter Event.isError) = [] ∧
      ∀ c ∈ (translateLoop tr total segs i hist acc).calls, callOk tr c = true := by
  intro segs
  induction segs with
  | nil =>
    intro i hist acc out _
    exact ⟨rfl, by simp [translateLoop]⟩
  | cons seg rest ih =>
    intro i hist acc out h
    cases htr : tr seg.text (ctxArg hist) with
    | error e =>
      rw [translateLoop] at h
      rw [htr] at h
      exact absurd h (by simp)
    | ok jp =>
      rw [translateLoop] at h ⊢
      rw [htr] at h ⊢
      obtain ⟨h1, h2⟩ := ih (i + 1) (hist ++ [(seg.text, jp)])
        (acc ++ [Seg.mk jp seg.start seg.stop]) out h
      refine ⟨?_, ?_⟩
      · simpa [Event.isError] using h1
      · intro c hc
        simp only [List.mem_cons] at hc
        rcases hc with rfl | hc
        · simp [callOk, htr]
        · exact h2 c hc

theorem translateLoop_fail (tr : Tr) (total : Nat) :
    ∀ segs i hist acc,
      (translateLoop tr total segs i hist acc).result = none →
      ∃ pre e cs c,
        (translateLoop tr total segs i hist acc).events = pre ++ [Event.error e] ∧
        (∀ ev ∈ pre, Event.isError ev = false) ∧
        (translateLoop tr total segs i hist acc).calls = cs ++ [c] ∧
        callOk tr c = false ∧ (∀ c' ∈ cs, callOk tr c' = true) := by
  intro segs
  induction segs with
  | nil =>
    intro i hist acc h
    exact absurd h (by simp [translateLoop])
  | cons seg rest ih =>
    intro i hist acc h
    cases htr : tr seg.text (ctxArg hist) with
    | error e =>
      rw [translateLoop]
      rw [htr]
      exact ⟨[], e, [], (seg.text, ctxArg hist), rfl, by simp, rfl,
        by simp [callOk, htr], by simp⟩
    | ok jp =>
      rw [translateLoop] at h ⊢
      rw [htr] at h ⊢
      obtain ⟨pre, e, cs, c, h1, h2, h3, h4, h5⟩ := ih (i + 1)
        (hist ++ [(seg.text, jp)]) (acc ++ [Seg.mk jp seg.start seg.stop]) h
      refine ⟨Event.translating (i + 1) total :: pre, e,
        (seg.text, ctxArg hist) :: cs, c, ?_, ?_, ?_, h4, ?_⟩
      · simp [h1]
      · intro ev hev
        simp only [List.mem_cons] at hev
        rcases hev with rfl | hev
        · rfl
        · exact h2 ev hev
      · simp [h3]
      · intro c' hc'
        simp only [List.mem_cons] at hc'
        rcases hc' with rfl | hc'
        · simp [callOk, htr]
        · exact h5 c' hc'

theorem translateLoop_ctx (tr : Tr) (total : Nat) :
    ∀ segs i hist acc k c,
      (translateLoop tr total segs i hist acc).calls[k]? = some c →
      ctxList c.2 =
        lastN CONTEXT_WINDOW
          (hist ++ ((translateLoop tr total segs i hist acc).calls.take k).map
            (callPair tr)) := by
  intro segs
  induction segs with
  | nil =>
    intro i hist acc k c h
    exact absurd h (by simp [translateLoop])
  | cons seg rest ih =>
    intro i hist acc k c h
    cases htr : tr seg.text (ctxArg hist) with
    | error e =>
      rw [translateLoop] at h ⊢
      rw [htr] at h ⊢
      match k with
      | 0 =>
        simp only [List.getElem?_cons_zero, Option.some.injEq] at h
        subst h
        simpa using ctxList_ctxArg hist
      | k + 1 =>
        exact absurd h (by simp)
    | ok jp =>
      rw [translateLoop] at h ⊢
      rw [htr] at h ⊢
      match k with
      | 0 =>
        simp only [List.getElem?_cons_zero, Option.some.injEq] at h
        subst h
        simpa using ctxList_ctxArg hist
      | k + 1 =>
        simp only [List.getElem?_cons_succ] at h
        have := ih (i + 1) (hist ++ [(seg.text, jp)])
          (acc ++ [Seg.mk jp seg.start seg.stop]) k c h
        rw [this]
        simp [callPair, okText, htr, List.append_assoc]

theorem unload_model_none (t : TrState) : (Translator.unload t).1.model = none := by
  unfold Translator.unload Translator.unload_
  by_cases h : t.model = none
  · rw [if_pos h]
    exact h
  · rw [if_neg h]

theorem streamBody_final (tr : Tr) (segs : List Seg) (total : Nat) (t : TrState)
    (pre : List Event) : (streamBody tr segs total t pre).final.model = none := by
  unfold streamBody
  cases hres : (translateLoop tr total segs 0 [] []).result with
  | none => simpa [hres] using unload_model_none t
  | some out => simpa [hres] using unload_model_none t

/-- C1 (amended): after every translation request completes — success,
per-segment failure, or model-load failure — the batch-translation handle
is Unloaded: the stream's `finally` block unloads it (server.py 249-251),
and a failed load never set it.  The claim's "left loaded" state is false;
only the separate lookup handle stays resident. -/
theorem C1_translator_unloaded_after_request (tr : Tr)
    (loadRes : Except (List Char) Unit) (segs : List Seg) (t0 : TrState) :
    (translateStream tr loadRes segs t0).final.model = none := by
  unfold translateStream
  by_cases h0 : t0.model = none
  · rw [if_pos h0]
    cases loadRes with
    | error e => exact h0
    | ok u => exact streamBody_final ..
  · rw [if_neg h0]
    exact streamBody_final ..

theorem streamBody_calls (tr : Tr) (segs : List Seg) (total : Nat) (t : TrState)
    (pre : List Event) :
    (streamBody tr segs total t pre).calls =
      (translateLoop tr total segs 0 [] []).calls := by
  unfold streamBody
  cases hres : (translateLoop tr total segs 0 [] []).result <;> simp [hres]

theorem streamBody_fail (tr : Tr) (segs : List Seg) (total : Nat) (t : TrState)
    (pre : List Event) (hpre : ∀ ev ∈ pre, Event.isError ev = false)
    (h : ∃ c ∈ (streamBody tr segs total t pre).calls, callOk tr c = false) :
    (streamBody tr segs total t pre).written = none ∧
    ((streamBody tr segs total t pre).events.filter Event.isError).length = 1 ∧
    (∃ e, (streamBody tr segs total t pre).events.getLast? =
      some (Event.error e)) ∧
    (∃ c, (streamBody tr segs total t pre).calls.getLast? = some c ∧
      callOk tr c = false) ∧
    ∀ c ∈ (streamBody tr segs total t pre).calls.dropLast, callOk tr c = true := by
  have hres : (translateLoop tr total segs 0 [] []).result = none := by
    cases hres : (translateLoop tr total segs 0 [] []).result with
    | none => rfl
    | some out =>
      obtain ⟨c, hc, hbad⟩ := h
      rw [streamBody_calls] at hc
      have hok := (translateLoop_ok tr total segs 0 [] [] out hres).2 c hc
      rw [hok] at hbad
      exact absurd hbad (by simp)
  obtain ⟨pre', e, cs, c, h1, h2, h3, h4, h5⟩ :=
    translateLoop_fail tr total segs 0 [] [] hres
  have hbody : streamBody tr segs total t pre =
      StreamOut.mk (pre ++ Event.translating 0 total ::
          (translateLoop tr total segs 0 [] []).events)
        (translateLoop tr total segs 0 [] []).calls none (Translator.unload t).1 := by
    simp only [streamBody]
    rw [hres]
  rw [hbody]
  refine ⟨rfl, ?_, ?_, ?_, ?_⟩
  · show ((pre ++ Event.translating 0 total ::
        (translateLoop tr total segs 0 [] []).events).filter Event.isError).length = 1
    rw [h1, List.filter_append, List.filter_cons]
    have hp : pre.filter Event.isError = [] := by
      rw [List.filter_eq_nil_iff]
      intro ev hev
      simp [hpre ev hev]
    rw [hp, List.filter_append, List.filter_cons]
    have hp' : pre'.filter Event.isError = [] := by
      rw [List.filter_eq_nil_iff]
      intro ev hev
      simp [h2 ev hev]
    rw [hp']
    rfl
  · refine ⟨e, ?_⟩
    show (pre ++ Event.translating 0 total ::
        (translateLoop tr total segs 0 [] []).events).getLast? =
      some (Event.error e)
    rw [h1]
    rw [show Event.translating 0 total :: (pre' ++ [Event.error e])
        = (Event.translating 0 total :: pre') ++ [Event.error e] from by simp]
    rw [← List.append_assoc]
    exact List.getLast?_concat _
  · refine ⟨c, ?_, h4⟩
    show (translateLoop tr total segs 0 [] []).calls.getLast? = some c
    rw [h3]
    exact List.getLast?_concat _
  · intro c' hc'
    rw [h3, List.dropLast_concat] at hc'
    exact h5 c' hc'

/-- C3: if the translator collaborator fails (raises) on any segment during
a translation request, the whole operation terminates with a single error
event on the progress stream (the last event), no further segments are
translated (every call but the failing last one succeeded), and no output
subtitle file is written. -/
theorem C3_translate_fail_fast (tr : Tr) (loadRes : Except (List Char) Unit)
    (segs : List Seg) (t0 : TrState)
    (h : ∃ c ∈ (translateStream tr loadRes segs t0).calls, callOk tr c = false) :
    (translateStream tr loadRes segs t0).written = none ∧
    ((translateStream tr loadRes segs t0).events.filter Event.isError).length = 1 ∧
    (∃ e, (translateStream tr loadRes segs t0).events.getLast? =
      some (Event.error e)) ∧
    (∃ c, (translateStream tr loadRes segs t0).calls.getLast? = some c ∧
      callOk tr c = false) ∧
    ∀ c ∈ (translateStream tr loadRes segs t0).calls.dropLast,
      callOk tr c = true := by
  unfold translateStream at h ⊢
  by_cases h0 : t0.model = none
  · rw [if_pos h0] at h ⊢
    cases loadRes with
    | error e => simp at h
    | ok u =>
      exact streamBody_fail tr segs segs.length (Translator.load t0).1
        [Event.loading_model] (by intro ev hev; simp at hev; subst hev; rfl) h
  · rw [if_neg h0] at h ⊢
    exact streamBody_fail tr segs segs.length t0 [] (by simp) h

/-- Witness for C3: a translator that rejects every segment, on a
one-segment request with the model already loaded. -/
theorem C3_translate_fail_fast_witness :
    (translateStream (fun _ _ => Except.error ['b', 'o', 'o', 'm'])
        (Except.ok ()) [Seg.mk ['H', 'i', '.'] 0 (some 1)]
        (TrState.mk "m" (some "m"))).written = none ∧
    (((translateStream (fun _ _ => Except.error ['b', 'o', 'o', 'm'])
        (Except.ok ()) [Seg.mk ['H', 'i', '.'] 0 (some 1)]
        (TrState.mk "m" (some "m"))).events.filter Event.isError).length = 1) ∧
    (∃ e, (translateStream (fun _ _ => Except.error ['b', 'o', 'o', 'm'])
        (Except.ok ()) [Seg.mk ['H', 'i', '.'] 0 (some 1)]
        (TrState.mk "m" (some "m"))).events.getLast? = some (Event.error e)) ∧
    (∃ c, (translateStream (fun _ _ => Except.error ['b', 'o', 'o', 'm'])
        (Except.ok ()) [Seg.mk ['H', 'i', '.'] 0 (some 1)]
        (TrState.mk "m" (some "m"))).calls.getLast? = some c ∧
      callOk (fun _ _ => Except.error ['b', 'o', 'o', 'm']) c = false) ∧
    ∀ c ∈ (translateStream (fun _ _ => Except.error ['b', 'o', 'o', 'm'])
        (Except.ok ()) [Seg.mk ['H', 'i', '.'] 0 (some 1)]
        (TrState.mk "m" (some "m"))).calls.dropLast,
      callOk (fun _ _ => Except.error ['b', 'o', 'o', 'm']) c = true := by
  refine C3_translate_fail_fast _ _ _ _ ⟨(['H', 'i', '.'], none), ?_, rfl⟩
  simp [translateStream, streamBody, translateLoop, ctxArg, lastN]

theorem translateStream_calls (tr : Tr) (loadRes : Except (List Char) Unit)
    (segs : List Seg) (t0 : TrState) :
    (translateStream tr loadRes segs t0).calls =
        (translateLoop tr segs.length segs 0 [] []).calls ∨
      (translateStream tr loadRes segs t0).calls = [] := by
  unfold translateStream
  by_cases h0 : t0.model = none
  · rw [if_pos h0]
    cases loadRes with
    | error e => exact Or.inr rfl
    | ok u => exact Or.inl (streamBody_calls ..)
  · rw [if_neg h0]
    exact Or.inl (streamBody_calls ..)

/-- C6: during translation, the context passed to the translator for the
`i`-th call is exactly the last `min(CONTEXT_WINDOW, i)` previously
completed `(source, translated)` pairs in order (each pair appended right
after its successful call); in particular on the third call of the
`["Hi.", "How are you?", "Fine, thanks."]` scenario the context window is
exactly the first two pairs. -/
theorem C6_context_window :
    (∀ (tr : Tr) (loadRes : Except (List Char) Unit) (segs : List Seg)
        (t0 : TrState) (i : Nat) (c : Call),
      (translateStream tr loadRes segs t0).calls[i]? = some c →
      ctxList c.2 = lastN CONTEXT_WINDOW
          (((translateStream tr loadRes segs t0).calls.take i).map (callPair tr)) ∧
      (ctxList c.2).length = min CONTEXT_WINDOW i) ∧
    (translateStream (fun t _ => Except.ok ('J' :: t)) (Except.ok ())
        [Seg.mk "Hi.".toList 0 (some 1),
         Seg.mk "How are you?".toList 1 (some 2),
         Seg.mk "Fine, thanks.".toList 2 (some 3)]
        (TrState.mk "m" (some "m"))).calls[2]? =
      some ("Fine, thanks.".toList,
        some [("Hi.".toList, 'J' :: "Hi.".toList),
              ("How are you?".toList, 'J' :: "How are you?".toList)]) := by
  constructor
  · intro tr loadRes segs t0 i c h
    have hcalls := translateStream_calls tr loadRes segs t0
    rcases hcalls with hcalls | hcalls
    · rw [hcalls] at h ⊢
      have hctx := translateLoop_ctx tr segs.length segs 0 [] [] i c h
      rw [List.nil_append] at hctx
      refine ⟨hctx, ?_⟩
      have hi : i < (translateLoop tr segs.length segs 0 [] []).calls.length := by
        by_contra hi
        rw [List.getElem?_eq_none (Nat.le_of_not_lt hi)] at h
        exact absurd h (by simp)
      rw [hctx]
      unfold lastN
      rw [List.length_drop, List.length_map, List.length_take]
      omega
    · rw [hcalls] at h
      exact absurd h (by simp)
  · rfl

/-- Witness for C6 at the three-segment scenario, third call. -/
theorem C6_context_window_witness :
    ctxList (some [("Hi.".toList, 'J' :: "Hi.".toList),
        ("How are you?".toList, 'J' :: "How are you?".toList)]) =
      lastN CONTEXT_WINDOW
        (((translateStream (fun t _ => Except.ok ('J' :: t)) (Except.ok ())
            [Seg.mk "Hi.".toList 0 (some 1),
             Seg.mk "How are you?".toList 1 (some 2),
             Seg.mk "Fine, thanks.".toList 2 (some 3)]
            (TrState.mk "m" (some "m"))).calls.take 2).map
          (callPair (fun t _ => Except.ok ('J' :: t)))) ∧
    (ctxList (some [("Hi.".toList, 'J' :: "Hi.".toList),
        ("How are you?".toList, 'J' :: "How are you?".toList)])).length =
      min CONTEXT_WINDOW 2 := by
  have := C6_context_window.1 (fun t _ => Except.ok ('J' :: t)) (Except.ok ())
    [Seg.mk "Hi.".toList 0 (some 1),
     Seg.mk "How are you?".toList 1 (some 2),
     Seg.mk "Fine, thanks.".toList 2 (some 3)]
    (TrState.mk "m" (some "m")) 2
    ("Fine, thanks.".toList,
      some [("Hi.".toList, 'J' :: "Hi.".toList),
            ("How are you?".toList, 'J' :: "How are you?".toList)])
    C6_context_window.2
  exact this

/-- C1 counterexample: a successful one-segment translation request that
starts with the batch translator Loaded ends with it Unloaded (its model
freed by the `finally` block), refuting "the Model Handle is in the Loaded
state after every translation request completes". -/
theorem C1_counterexample :
    ((translateStream (fun t _ => Except.ok t) (Except.ok ())
        [Seg.mk ['H', 'i', '.'] 0 (some 1)]
        (TrState.mk "Qwen/Qwen3-1.7B" (some "Qwen/Qwen3-1.7B"))).final.model).isSome
      = false := by
  rfl

/-! ## Python split/strip lemmas -/

theorem pySplit_cons_space (w : Char) (hw : isSpace w = true) (b : List Char) :
    pySplit (w :: b) = pySplit b := by
  unfold pySplit
  rw [pySplitAux, if_pos hw, if_pos rfl]

theorem pySplitAux_append_space (w : Char) (hw : isSpace w = true) :
    ∀ (a b cur : List Char),
      pySplitAux (a ++ w :: b) cur = pySplitAux a cur ++ pySplit b := by
  intro a
  induction a with
  | nil =>
    intro b cur
    by_cases hc : cur = []
    · subst hc
      simp [pySplitAux, hw, pySplit]
    · simp [pySplitAux, hw, hc, pySplit]
  | cons c a' ih =>
    intro b cur
    by_cases hsp : isSpace c = true
    · by_cases hc : cur = []
      · subst hc
        rw [List.cons_append, pySplitAux, if_pos hsp, if_pos rfl,
          pySplitAux, if_pos hsp, if_pos rfl]
        exact ih b []
      · rw [List.cons_append, pySplitAux, if_pos hsp, if_neg hc,
          pySplitAux, if_pos hsp, if_neg hc, ih b []]
        rfl
    · rw [List.cons_append, pySplitAux, if_neg (by simp [hsp]),
        pySplitAux, if_neg (by simp [hsp])]
      exact ih b (c :: cur)

theorem pySplit_append_space (w : Char) (hw : isSpace w = true)
    (a b : List Char) : pySplit (a ++ w :: b) = pySplit a ++ pySplit b :=
  pySplitAux_append_space w hw a b []

theorem pySplit_all_space (sp : List Char)
    (h : ∀ ch ∈ sp, isSpace ch = true) : pySplit sp = [] := by
  induction sp with
  | nil => rfl
  | cons c r ih =>
    rw [pySplit_cons_space c (h c (by simp))]
    exact ih (fun ch hch => h ch (by simp [hch]))

theorem pySplit_append_all_space (x sp : List Char)
    (h : ∀ ch ∈ sp, isSpace ch = true) : pySplit (x ++ sp) = pySplit x := by
  cases sp with
  | nil => simp
  | cons w sp' =>
    rw [pySplit_append_space w (h w (by simp)),
      pySplit_all_space sp' (fun ch hch => h ch (by simp [hch]))]
    simp

theorem pySplit_dropWhile (l : List Char) :
    pySplit (l.dropWhile isSpace) = pySplit l := by
  induction l with
  | nil => rfl
  | cons c r ih =>
    by_cases hsp : isSpace c = true
    · rw [List.dropWhile_cons_of_pos hsp, ih, pySplit_cons_space c hsp]
    · rw [List.dropWhile_cons_of_neg (by simp [hsp])]

theorem pySplit_pyStrip (l : List Char) : pySplit (pyStrip l) = pySplit l := by
  have hsp : ∀ ch ∈ ((l.dropWhile isSpace).reverse.takeWhile isSpace).reverse,
      isSpace ch = true := by
    intro ch hch
    rw [List.mem_reverse] at hch
    exact List.mem_takeWhile_imp hch
  have hdec : l.dropWhile isSpace =
      ((l.dropWhile isSpace).reverse.dropWhile isSpace).reverse ++
        ((l.dropWhile isSpace).reverse.takeWhile isSpace).reverse := by
    conv_lhs => rw [← List.reverse_reverse (l.dropWhile isSpace)]
    rw [← List.reverse_append, List.takeWhile_append_dropWhile]
  calc pySplit (pyStrip l)
      = pySplit (((l.dropWhile isSpace).reverse.dropWhile isSpace).reverse ++
          ((l.dropWhile isSpace).reverse.takeWhile isSpace).reverse) :=
        (pySplit_append_all_space _ _ hsp).symm
    _ = pySplit (l.dropWhile isSpace) := by rw [← hdec]
    _ = pySplit l := pySplit_dropWhile l

theorem pySplitAux_members :
    ∀ (l cur : List Char), (∀ ch ∈ cur, isSpace ch = false) →
      ∀ w ∈ pySplitAux l cur, w ≠ [] ∧ ∀ ch ∈ w, isSpace ch = false := by
  intro l
  induction l with
  | nil =>
    intro cur hcur w hw
    by_cases hc : cur = []
    · subst hc
      simp [pySplitAux] at hw
    · rw [pySplitAux, if_neg hc] at hw
      simp only [List.mem_singleton] at hw
      subst hw
      refine ⟨by simpa using hc, ?_⟩
      intro ch hch
      exact hcur ch (by simpa using hch)
  | cons c r ih =>
    intro cur hcur w hw
    by_cases hsp : isSpace c = true
    · rw [pySplitAux, if_pos hsp] at hw
      by_cases hc : cur = []
      · rw [if_pos hc] at hw
        exact ih [] (by simp) w hw
      · rw [if_neg hc] at hw
        simp only [List.mem_cons] at hw
        rcases hw with rfl | hw
        · refine ⟨by simpa using hc, ?_⟩
          intro ch hch
          exact hcur ch (by simpa using hch)
        · exact ih [] (by simp) w hw
    · rw [pySplitAux, if_neg (by simp [hsp])] at hw
      refine ih (c :: cur) ?_ w hw
      intro ch hch
      simp only [List.mem_cons] at hch
      rcases hch with rfl | hch
      · simpa using hsp
      · exact hcur ch hch

theorem pySplit_members (l : List Char) :
    ∀ w ∈ pySplit l, w ≠ [] ∧ ∀ ch ∈ w, isSpace ch = false :=
  pySplitAux_members l [] (by simp)

theorem pySplitAux_no_space (w : List Char)
    (h : ∀ ch ∈ w, isSpace ch = false) :
    ∀ cur : List Char, cur ≠ [] ∨ w ≠ [] →
      pySplitAux w cur = [cur.reverse ++ w] := by
  induction w with
  | nil =>
    intro cur hne
    rcases hne with hne | hne
    · rw [pySplitAux, if_neg hne]
      simp
    · exact absurd rfl hne
  | cons c r ih =>
    intro cur _
    rw [pySplitAux, if_neg (by simp [h c (by simp)])]
    rw [ih (fun ch hch => h ch (by simp [hch])) (c :: cur) (Or.inl (by simp))]
    simp

theorem pySplit_single_word (w : List Char) (hne : w ≠ [])
    (h : ∀ ch ∈ w, isSpace ch = false) : pySplit w = [w] := by
  unfold pySplit
  rw [pySplitAux_no_space w h [] (Or.inr hne)]
  rfl

theorem pySplit_joinSpace (ws : List (List Char))
    (h : ∀ w ∈ ws, w ≠ [] ∧ ∀ ch ∈ w, isSpace ch = false) :
    pySplit (joinSpace ws) = ws := by
  induction ws with
  | nil => rfl
  | cons w ws' ih =>
    cases ws' with
    | nil =>
      show pySplit w = [w]
      exact pySplit_single_word w (h w (by simp)).1 (h w (by simp)).2
    | cons w2 ws'' =>
      show pySplit (w ++ ' ' :: joinSpace (w2 :: ws'')) = w :: w2 :: ws''
      rw [pySplit_append_space ' ' rfl,
        pySplit_single_word w (h w (by simp)).1 (h w (by simp)).2,
        ih (fun x hx => h x (by simp [hx]))]
      rfl

/-! ## Segment Splitter (backend/subtitle.py, `split_long_segments`)

The two regex splits `re.split(r'(?<=[.!?])\s+', text)` and
`re.split(r'(?<=,)\s+', chunk)` cut the string at every maximal whitespace
run whose immediately preceding character satisfies the lookbehind class;
`reSplitAux` is that scanner: `inSep` marks being inside a separator run,
`prevP` whether the previous character satisfies the lookbehind, `cur` the
current piece reversed. -/

/-- Scanner for `re.split` with a one-character lookbehind class `p` and
separator `\s+`. -/
def reSplitAux (p : Char → Bool) : List Char → Bool → Bool → List Char →
    List (List Char)
  | [], inSep, _, cur => if inSep then [[]] else [cur.reverse]
  | c :: r, true, _, cur =>
      if isSpace c then reSplitAux p r true false cur
      else reSplitAux p r false (p c) [c]
  | c :: r, false, prevP, cur =>
      if isSpace c && prevP then cur.reverse :: reSplitAux p r true false []
      else reSplitAux p r false (p c) (c :: cur)

/-- Python `re.split(r'(?<=P)\s+', s)` for a character class `P`. -/
def reSplitAfter (p : Char → Bool) (s : List Char) : List (List Char) :=
  reSplitAux p s false false []

theorem reSplitAux_flatten (p : Char → Bool) :
    ∀ (l : List Char) (inSep prevP : Bool) (cur : List Char),
      ((reSplitAux p l inSep prevP cur).map pySplit).flatten =
        pySplit ((if inSep then [] else cur.reverse) ++ l) := by
  intro l
  induction l with
  | nil =>
    intro inSep prevP cur
    cases inSep with
    | true => simp [reSplitAux, pySplit, pySplitAux]
    | false => simp [reSplitAux]
  | cons c r ih =>
    intro inSep prevP cur
    cases inSep with
    | true =>
      by_cases hsp : isSpace c = true
      · rw [reSplitAux, if_pos hsp, ih true false cur]
        simp [pySplit_cons_space c hsp]
      · rw [reSplitAux, if_neg (by simp [hsp]), ih false (p c) [c]]
        simp
    | false =>
      by_cases hsp : (isSpace c && prevP) = true
      · have hspc : isSpace c = true := by
          revert hsp
          cases h : isSpace c <;> simp
        rw [reSplitAux, if_pos hsp]
        simp only [List.map_cons, List.flatten_cons]
        rw [ih true false []]
        simp [pySplit_append_space c hspc]
      · rw [reSplitAux, if_neg hsp, ih false (p c) (c :: cur)]
        simp [List.append_assoc]

theorem reSplitAfter_flatten (p : Char → Bool) (s : List Char) :
    ((reSplitAfter p s).map pySplit).flatten = pySplit s := by
  unfold reSplitAfter
  rw [reSplitAux_flatten p s false false []]
  rfl

/-- Total word count of a chunk list:
`sum(len(c.split()) for c in chunks)` (subtitle.py line 107). -/
def totalWords (chunks : List (List Char)) : Nat :=
  (chunks.map (fun c => (pySplit c).length)).sum

theorem totalWords_reSplitAfter (p : Char → Bool) (s : List Char) :
    totalWords (reSplitAfter p s) = wordCount s := by
  unfold totalWords wordCount
  rw [← reSplitAfter_flatten p s, List.length_flatten, List.map_map]
  rfl

/-- The forced split `for i in range(0, len(ws), max_words)` collecting the
blocks `ws[i : i + max_words]` (subtitle.py 102-104).  Python raises
ValueError for step 0; `max_words = 0` is unreachable from
`split_long_segments`, whose theorems assume a positive budget. -/
def groupsOf (m : Nat) : List α → List (List α)
  | [] => []
  | a :: l => (a :: l.take (m - 1)) :: groupsOf m (l.drop (m - 1))
termination_by l => l.length
decreasing_by
  simp only [List.length_drop, List.length_cons]
  omega

theorem groupsOf_flatten_aux (m : Nat) :
    ∀ (n : Nat) (l : List α), l.length ≤ n → (groupsOf m l).flatten = l := by
  intro n
  induction n with
  | zero =>
    intro l hl
    rw [List.length_eq_zero.mp (Nat.le_zero.mp hl)]
    simp [groupsOf]
  | succ n ih =>
    intro l hl
    cases l with
    | nil => simp [groupsOf]
    | cons a l' =>
      rw [groupsOf]
      simp only [List.flatten_cons, List.cons_append]
      rw [ih (l'.drop (m - 1)) (by simp only [List.length_drop]; simp at hl; omega)]
      rw [List.take_append_drop]

theorem groupsOf_flatten (m : Nat) (l : List α) : (groupsOf m l).flatten = l :=
  groupsOf_flatten_aux m l.length l (Nat.le_refl _)

theorem totalWords_append (x y : List (List Char)) :
    totalWords (x ++ y) = totalWords x + totalWords y := by
  simp [totalWords]

theorem totalWords_singleton (c : List Char) :
    totalWords [c] = wordCount c := by
  simp [totalWords, wordCount]

theorem totalWords_force (m : Nat) (s : List Char) :
    totalWords ((groupsOf m (pySplit s)).map joinSpace) = wordCount s := by
  unfold totalWords wordCount
  rw [List.map_map]
  have hmem : ∀ g ∈ groupsOf m (pySplit s),
      ((fun c => (pySplit c).length) ∘ joinSpace) g = g.length := by
    intro g hg
    show (pySplit (joinSpace g)).length = g.length
    rw [pySplit_joinSpace g ?wordsOk]
    case wordsOk =>
      intro w hw
      refine pySplit_members s w ?_
      rw [← groupsOf_flatten m (pySplit s)]
      exact List.mem_flatten.mpr ⟨g, hg, hw⟩
  rw [List.map_congr_left hmem, ← List.length_flatten, groupsOf_flatten]

/-- The sentence-final character class `[.!?]` of the first regex pass. -/
def sentenceEnd (c : Char) : Bool := c = '.' || c = '!' || c = '?'

/-- The comma class of the second regex pass. -/
def commaChar (c : Char) : Bool := c = ','

/-- The cascade (subtitle.py 87-104) building `chunks`: split at sentence
ends; any chunk still over budget is split at commas; any piece still over
budget is force-split into `max_words`-word groups. -/
def cascadeChunks (text : List Char) (max_words : Nat) : List (List Char) :=
  (reSplitAfter sentenceEnd text).flatMap (fun chunk =>
    if (pySplit chunk).length ≤ max_words then [chunk]
    else (reSplitAfter commaChar chunk).flatMap (fun s =>
      if (pySplit s).length ≤ max_words then [s]
      else (groupsOf max_words (pySplit s)).map joinSpace))

theorem totalWords_bind (l : List (List Char))
    (f : List Char → List (List Char)) :
    totalWords (l.flatMap f) = (l.map (fun c => totalWords (f c))).sum := by
  induction l with
  | nil => rfl
  | cons a l ih =>
    rw [List.flatMap_cons, totalWords_append, ih]
    simp

theorem totalWords_cascade (text : List Char) (m : Nat) :
    totalWords (cascadeChunks text m) = wordCount text := by
  unfold cascadeChunks
  rw [totalWords_bind]
  have hinner : ∀ chunk ∈ reSplitAfter sentenceEnd text,
      totalWords (if (pySplit chunk).length ≤ m then [chunk]
        else (reSplitAfter commaChar chunk).flatMap (fun s =>
          if (pySplit s).length ≤ m then [s]
          else (groupsOf m (pySplit s)).map joinSpace)) = wordCount chunk := by
    intro chunk _
    by_cases hle : (pySplit chunk).length ≤ m
    · rw [if_pos hle, totalWords_singleton]
    · rw [if_neg hle, totalWords_bind]
      have hinner2 : ∀ s ∈ reSplitAfter commaChar chunk,
          totalWords (if (pySplit s).length ≤ m then [s]
            else (groupsOf m (pySplit s)).map joinSpace) = wordCount s := by
        intro s _
        by_cases hle2 : (pySplit s).length ≤ m
        · rw [if_pos hle2, totalWords_singleton]
        · rw [if_neg hle2]
          exact totalWords_force m s
      rw [List.map_congr_left hinner2]
      exact totalWords_reSplitAfter commaChar chunk
  rw [List.map_congr_left hinner]
  exact totalWords_reSplitAfter sentenceEnd text

/-- The timestamp reallocation loop (subtitle.py 109-114) idealized over
exact rational arithmetic: each chunk gets
`chunk_end = t + duration * n / total_words` and the cursor `t` advances to
that boundary.  The faithful IEEE-754 binary64 semantics of the same lines
is `assignTimesF` below; the two differ exactly by rounding. -/
def assignTimes (duration total : ℚ) : List (List Char) → ℚ → List Seg
  | [], _ => []
  | chunk :: rest, t =>
      Seg.mk chunk t
          (some (t + duration * ((pySplit chunk).length : ℚ) / total)) ::
        assignTimes duration total rest
          (t + duration * ((pySplit chunk).length : ℚ) / total)

/-- The per-segment body of `split_long_segments` (subtitle.py 78-114).
`none` models the TypeError Python would raise at `end - start` when the
segment enters the splitting branch with a `None` end timestamp. -/
def splitSeg (seg : Seg) (max_words : Nat) : Option (List Seg) :=
  if (pySplit (pyStrip seg.text)).length ≤ max_words then some [seg]
  else
    match seg.stop with
    | none => none
    | some e =>
        some (assignTimes (e - seg.start)
          (if totalWords (cascadeChunks (pyStrip seg.text) max_words) = 0 then 1
           else (totalWords (cascadeChunks (pyStrip seg.text) max_words) : ℚ))
          (cascadeChunks (pyStrip seg.text) max_words) seg.start)

/-- subtitle.py `split_long_segments`: every segment within the word budget
passes through unchanged; longer ones are replaced by their cascade chunks
with proportionally reallocated timestamps. -/
def split_long_segments (segs : List Seg) (max_words : Nat) :
    Option (List Seg) :=
  match segs with
  | [] => some []
  | seg :: rest => do
      let a ← splitSeg seg max_words
      let b ← split_long_segments rest max_words
      pure (a ++ b)

/-- The output chunks of one split segment tile the original interval
`[t, e]`: consecutive, in order, starting at `t` and ending at `e`. -/
def Chained : ℚ → List Seg → ℚ → Prop
  | t, [], e => t = e
  | t, s :: rest, e => s.start = t ∧ ∃ q, s.stop = some q ∧ Chained q rest e

theorem assignTimes_chained (duration total : ℚ) :
    ∀ (chunks : List (List Char)) (t : ℚ),
      Chained t (assignTimes duration total chunks t)
        (t + duration * (totalWords chunks : ℚ) / total) := by
  intro chunks
  induction chunks with
  | nil =>
    intro t
    show t = t + duration * ((totalWords [] : Nat) : ℚ) / total
    simp [totalWords]
  | cons chunk rest ih =>
    intro t
    have hEq : t + duration * ((totalWords (chunk :: rest) : Nat) : ℚ) / total =
        (t + duration * ((pySplit chunk).length : ℚ) / total) +
          duration * ((totalWords rest : Nat) : ℚ) / total := by
      have : totalWords (chunk :: rest) = (pySplit chunk).length + totalWords rest := by
        simp [totalWords]
      rw [this]
      push_cast
      ring
    rw [hEq]
    exact ⟨rfl, t + duration * ((pySplit chunk).length : ℚ) / total, rfl,
      ih (t + duration * ((pySplit chunk).length : ℚ) / total)⟩

theorem chained_sum_dur :
    ∀ (out : List Seg) (t e : ℚ), Chained t out e →
      (out.map (fun s => s.stop.getD s.start - s.start)).sum = e - t := by
  intro out
  induction out with
  | nil =>
    intro t e h
    rw [h]
    simp
  | cons s rest ih =>
    intro t e h
    obtain ⟨hs, q, hq, hrest⟩ := h
    rw [List.map_cons, List.sum_cons, hq, hs, ih q e hrest]
    show q - t + (e - q) = e - t
    ring

theorem chained_last_stop :
    ∀ (out : List Seg) (t e : ℚ) (s : Seg), Chained t out e →
      out.getLast? = some s → s.stop = some e := by
  intro out
  induction out with
  | nil =>
    intro t e s _ hl
    exact absurd hl (by simp)
  | cons s0 rest ih =>
    intro t e s h hl
    obtain ⟨_, q, hq, hrest⟩ := h
    cases rest with
    | nil =>
      simp only [List.getLast?_singleton, Option.some.injEq] at hl
      subst hl
      have : q = e := hrest
      rw [hq, this]
    | cons s1 rest' =>
      rw [List.getLast?_cons_cons] at hl
      exact ih q e s hrest hl

/-! ### IEEE-754 binary64 semantics of the timestamp loop

`assignTimes` above idealizes the float arithmetic of subtitle.py as exact
rational arithmetic.  The definitions below embed the same lines under
genuine IEEE-754 binary64 semantics, the arithmetic of Python floats:
every operation's exact result is rounded to 53 significant bits, nearest
ties-to-even.  A double is represented by the exact rational it denotes;
`roundPosNat` covers the normal range (no overflow or subnormal arises in
the embedded computations).  The exact operations feeding the rounding are
written with `mkRat` over numerators and denominators so that concrete
runs kernel-evaluate; `qadd_eq` .. `qdiv_eq` prove them equal to the field
operations of ℚ. -/

/-- Floor of the base-2 logarithm, by structural recursion on a fuel
argument (fuel `n` always suffices for input `n`). -/
def log2Aux : Nat → Nat → Nat
  | 0, _ => 0
  | fuel + 1, n => if n < 2 then 0 else log2Aux fuel (n / 2) + 1

/-- Floor base-2 logarithm of a natural number. -/
def natLog2 (n : Nat) : Nat := log2Aux n n

/-- Round the positive rational `a / b` (with `a, b ≥ 1`) to the nearest
IEEE-754 binary64 value, ties to even: locate the binade
`k = ⌊log2 (a/b)⌋`, scale to a 53-bit integer significand, round the
quotient with ties to even, and return the exact rational value of the
resulting double. -/
def roundPosNat (a b : Nat) : ℚ :=
  let la := natLog2 a
  let lb := natLog2 b
  let k : ℤ :=
    if lb ≤ la then
      (if b * 2 ^ (la - lb) ≤ a then ((la - lb : Nat) : ℤ)
       else ((la - lb : Nat) : ℤ) - 1)
    else
      (if b ≤ a * 2 ^ (lb - la) then -((lb - la : Nat) : ℤ)
       else -((lb - la : Nat) : ℤ) - 1)
  let e : ℤ := k - 52
  let num : Nat := if e ≤ 0 then a * 2 ^ (-e).toNat else a
  let den : Nat := if e ≤ 0 then b else b * 2 ^ e.toNat
  let n : Nat := num / den
  let r : Nat := num % den
  let m : Nat :=
    if 2 * r < den then n
    else if den < 2 * r then n + 1
    else if n % 2 = 0 then n else n + 1
  if 0 ≤ e then ((m * 2 ^ e.toNat : Nat) : ℚ) else mkRat (m : ℤ) (2 ^ (-e).toNat)

/-- Round an exact rational to the nearest binary64 value (the sign is
read off the numerator so evaluation stays in integer arithmetic). -/
def roundQ (q : ℚ) : ℚ :=
  if q.num < 0 then -roundPosNat (-q.num).toNat q.den
  else if q.num = 0 then 0
  else roundPosNat q.num.toNat q.den

/-- Exact rational addition over numerator/denominator fields;
kernel-evaluable, and equal to `+` by `qadd_eq`. -/
def qadd (x y : ℚ) : ℚ :=
  mkRat (x.num * (y.den : ℤ) + y.num * (x.den : ℤ)) (x.den * y.den)

/-- Exact rational subtraction over numerator/denominator fields. -/
def qsub (x y : ℚ) : ℚ :=
  mkRat (x.num * (y.den : ℤ) - y.num * (x.den : ℤ)) (x.den * y.den)

/-- Exact rational multiplication over numerator/denominator fields. -/
def qmul (x y : ℚ) : ℚ := mkRat (x.num * y.num) (x.den * y.den)

/-- Exact rational division over numerator/denominator fields (for a
nonzero divisor it agrees with `/` by `qdiv_eq`). -/
def qdiv (x y : ℚ) : ℚ :=
  if 0 ≤ y.num then mkRat (x.num * (y.den : ℤ)) (x.den * y.num.toNat)
  else mkRat (-(x.num * (y.den : ℤ))) (x.den * (-y.num).toNat)

theorem qadd_eq (x y : ℚ) : qadd x y = x + y := by
  have hx : (x.den : ℚ) ≠ 0 := by exact_mod_cast x.den_nz
  have hy : (y.den : ℚ) ≠ 0 := by exact_mod_cast y.den_nz
  have hxe : (x.num : ℚ) = x * (x.den : ℚ) := (div_eq_iff hx).mp (Rat.num_div_den x)
  have hye : (y.num : ℚ) = y * (y.den : ℚ) := (div_eq_iff hy).mp (Rat.num_div_den y)
  unfold qadd
  rw [Rat.mkRat_eq_div]
  push_cast
  rw [div_eq_iff (mul_ne_zero hx hy), hxe, hye]
  ring

theorem qsub_eq (x y : ℚ) : qsub x y = x - y := by
  have hx : (x.den : ℚ) ≠ 0 := by exact_mod_cast x.den_nz
  have hy : (y.den : ℚ) ≠ 0 := by exact_mod_cast y.den_nz
  have hxe : (x.num : ℚ) = x * (x.den : ℚ) := (div_eq_iff hx).mp (Rat.num_div_den x)
  have hye : (y.num : ℚ) = y * (y.den : ℚ) := (div_eq_iff hy).mp (Rat.num_div_den y)
  unfold qsub
  rw [Rat.mkRat_eq_div]
  push_cast
  rw [div_eq_iff (mul_ne_zero hx hy), hxe, hye]
  ring

theorem qmul_eq (x y : ℚ) : qmul x y = x * y := by
  have hx : (x.den : ℚ) ≠ 0 := by exact_mod_cast x.den_nz
  have hy : (y.den : ℚ) ≠ 0 := by exact_mod_cast y.den_nz
  have hxe : (x.num : ℚ) = x * (x.den : ℚ) := (div_eq_iff hx).mp (Rat.num_div_den x)
  have hye : (y.num : ℚ) = y * (y.den : ℚ) := (div_eq_iff hy).mp (Rat.num_div_den y)
  unfold qmul
  rw [Rat.mkRat_eq_div]
  push_cast
  rw [div_eq_iff (mul_ne_zero hx hy), hxe, hye]
  ring

theorem qdiv_eq (x y : ℚ) (hy0 : y ≠ 0) : qdiv x y = x / y := by
  have hx : (x.den : ℚ) ≠ 0 := by exact_mod_cast x.den_nz
  have hyd : (y.den : ℚ) ≠ 0 := by exact_mod_cast y.den_nz
  have hxe : (x.num : ℚ) = x * (x.den : ℚ) := (div_eq_iff hx).mp (Rat.num_div_den x)
  have hye : (y.num : ℚ) = y * (y.den : ℚ) := (div_eq_iff hyd).mp (Rat.num_div_den y)
  have hyn : y.num ≠ 0 := Rat.num_ne_zero.mpr hy0
  unfold qdiv
  by_cases hpos : 0 ≤ y.num
  · rw [if_pos hpos, Rat.mkRat_eq_div]
    have hnn : ((y.num.toNat : ℕ) : ℚ) = (y.num : ℚ) := by
      exact_mod_cast Int.toNat_of_nonneg hpos
    have hynq : (y.num : ℚ) ≠ 0 := by exact_mod_cast hyn
    push_cast
    rw [hnn, div_eq_div_iff (mul_ne_zero hx hynq) hy0, hxe, hye]
    ring
  · rw [if_neg hpos, Rat.mkRat_eq_div]
    have hnn : (((-y.num).toNat : ℕ) : ℚ) = -(y.num : ℚ) := by
      exact_mod_cast Int.toNat_of_nonneg (by omega : (0 : ℤ) ≤ -y.num)
    have hynq : (y.num : ℚ) ≠ 0 := by exact_mod_cast hyn
    push_cast
    rw [hnn, div_eq_div_iff (mul_ne_zero hx (neg_ne_zero.mpr hynq)) hy0, hxe, hye]
    ring

/-- binary64 addition: round the exact sum. -/
def fadd (x y : ℚ) : ℚ := roundQ (qadd x y)

/-- binary64 subtraction: round the exact difference. -/
def fsub (x y : ℚ) : ℚ := roundQ (qsub x y)

/-- binary64 multiplication: round the exact product. -/
def fmul (x y : ℚ) : ℚ := roundQ (qmul x y)

/-- binary64 division: round the exact quotient (total: a zero divisor,
on which Python would raise, yields 0; unreachable from `splitSegF`). -/
def fdiv (x y : ℚ) : ℚ := if y.num = 0 then 0 else roundQ (qdiv x y)

/-- The timestamp reallocation loop (subtitle.py 109-114) under binary64
semantics: `chunk_end = t + duration * n / total_words` is evaluated
left-to-right as `fadd t (fdiv (fmul duration n) total)`, each
intermediate rounded, and the cursor advances to the stored `chunk_end`. -/
def assignTimesF (duration total : ℚ) : List (List Char) → ℚ → List Seg
  | [], _ => []
  | chunk :: rest, t =>
      Seg.mk chunk t
          (some (fadd t (fdiv (fmul duration ((pySplit chunk).length : ℚ)) total))) ::
        assignTimesF duration total rest
          (fadd t (fdiv (fmul duration ((pySplit chunk).length : ℚ)) total))

/-- The final value of the running cursor of `assignTimesF`. -/
def cursorEndF (duration total : ℚ) : List (List Char) → ℚ → ℚ
  | [], t => t
  | chunk :: rest, t =>
      cursorEndF duration total rest
        (fadd t (fdiv (fmul duration ((pySplit chunk).length : ℚ)) total))

/-- The per-segment body of `split_long_segments` under binary64 semantics
(`duration = end - start` is a float subtraction). -/
def splitSegF (seg : Seg) (max_words : Nat) : Option (List Seg) :=
  if (pySplit (pyStrip seg.text)).length ≤ max_words then some [seg]
  else
    match seg.stop with
    | none => none
    | some e =>
        some (assignTimesF (fsub e seg.start)
          (if totalWords (cascadeChunks (pyStrip seg.text) max_words) = 0 then 1
           else (totalWords (cascadeChunks (pyStrip seg.text) max_words) : ℚ))
          (cascadeChunks (pyStrip seg.text) max_words) seg.start)

/-- subtitle.py `split_long_segments` under binary64 semantics. -/
def split_long_segmentsF (segs : List Seg) (max_words : Nat) :
    Option (List Seg) :=
  match segs with
  | [] => some []
  | seg :: rest => do
      let a ← splitSegF seg max_words
      let b ← split_long_segmentsF rest max_words
      pure (a ++ b)

/-- Even under binary64 rounding the chunks tile contiguously: each
boundary is the one stored cursor value shared by the adjacent chunks, so
the output is chained from the start to the final cursor. -/
theorem assignTimesF_chained (duration total : ℚ) :
    ∀ (chunks : List (List Char)) (t : ℚ),
      Chained t (assignTimesF duration total chunks t)
        (cursorEndF duration total chunks t) := by
  intro chunks
  induction chunks with
  | nil =>
    intro t
    show t = t
    rfl
  | cons chunk rest ih =>
    intro t
    exact ⟨rfl, fadd t (fdiv (fmul duration ((pySplit chunk).length : ℚ)) total),
      rfl, ih (fadd t (fdiv (fmul duration ((pySplit chunk).length : ℚ)) total))⟩

/-- C2 (amended): for every segment that `split_long_segments` actually
splits, the output chunks' sub-intervals are contiguous and in order
starting at the original start time — exactly, even under the program's
IEEE-754 binary64 arithmetic (`split_long_segmentsF`), because each
boundary is the single stored running-cursor value shared by the adjacent
chunks — and the per-chunk durations telescope to (final cursor − original
start).  The stronger law that the last chunk's end equals the original
end exactly and the durations sum to the original duration holds under
exact rational arithmetic (`split_long_segments`); under binary64 it fails
(see `C2_counterexample`), the final boundary drifting from the original
end by accumulated rounding. -/
theorem C2_split_timestamps (seg : Seg) (e : ℚ) (max_words : Nat)
    (hm : 0 < max_words) (hstop : seg.stop = some e)
    (hlong : max_words < wordCount seg.text) :
    (∃ out, splitSegF seg max_words = some out ∧
      split_long_segmentsF [seg] max_words = some out ∧
      out ≠ [] ∧
      (∀ s, out.head? = some s → s.start = seg.start) ∧
      ∃ tEnd, Chained seg.start out tEnd ∧
        (out.map (fun s => s.stop.getD s.start - s.start)).sum =
          tEnd - seg.start) ∧
    (∃ out, splitSeg seg max_words = some out ∧
      split_long_segments [seg] max_words = some out ∧
      out ≠ [] ∧
      Chained seg.start out e ∧
      (∀ s, out.head? = some s → s.start = seg.start) ∧
      (∀ s, out.getLast? = some s → s.stop = some e) ∧
      (out.map (fun s => s.stop.getD s.start - s.start)).sum = e - seg.start) := by
  have hwords : (pySplit (pyStrip seg.text)).length = wordCount seg.text := by
    rw [pySplit_pyStrip]
    rfl
  have htw : totalWords (cascadeChunks (pyStrip seg.text) max_words) =
      wordCount seg.text := by
    rw [totalWords_cascade]
    unfold wordCount
    rw [pySplit_pyStrip]
  have htwpos : 0 < totalWords (cascadeChunks (pyStrip seg.text) max_words) := by
    rw [htw]
    omega
  have hT : (if totalWords (cascadeChunks (pyStrip seg.text) max_words) = 0 then (1 : ℚ)
      else (totalWords (cascadeChunks (pyStrip seg.text) max_words) : ℚ)) =
      (totalWords (cascadeChunks (pyStrip seg.text) max_words) : ℚ) := by
    rw [if_neg (by omega)]
  constructor
  · have hsplitF : splitSegF seg max_words =
        some (assignTimesF (fsub e seg.start)
          ((totalWords (cascadeChunks (pyStrip seg.text) max_words) : ℚ))
          (cascadeChunks (pyStrip seg.text) max_words) seg.start) := by
      unfold splitSegF
      rw [if_neg (by omega), hstop, hT]
    have hchF := assignTimesF_chained (fsub e seg.start)
      ((totalWords (cascadeChunks (pyStrip seg.text) max_words) : ℚ))
      (cascadeChunks (pyStrip seg.text) max_words) seg.start
    refine ⟨_, hsplitF, ?_, ?_, ?_, ?_⟩
    · unfold split_long_segmentsF
      rw [hsplitF]
      simp [split_long_segmentsF]
    · intro hnil
      cases hcas : cascadeChunks (pyStrip seg.text) max_words with
      | nil => rw [hcas] at htwpos; simp [totalWords] at htwpos
      | cons a l => rw [hcas] at hnil; exact absurd hnil (by simp [assignTimesF])
    · intro s hs
      cases hcas : cascadeChunks (pyStrip seg.text) max_words with
      | nil => rw [hcas] at hs; exact absurd hs (by simp [assignTimesF])
      | cons a l =>
        rw [hcas] at hs hchF
        simp only [assignTimesF, List.head?_cons, Option.some.injEq] at hs
        subst hs
        exact hchF.1
    · exact ⟨_, hchF, chained_sum_dur _ _ _ hchF⟩
  · have hsplit : splitSeg seg max_words =
        some (assignTimes (e - seg.start)
          ((totalWords (cascadeChunks (pyStrip seg.text) max_words) : ℚ))
          (cascadeChunks (pyStrip seg.text) max_words) seg.start) := by
      unfold splitSeg
      rw [if_neg (by omega), hstop, hT]
    refine ⟨_, hsplit, ?_, ?_, ?_, ?_, ?_, ?_⟩
    case refine_1 =>
      unfold split_long_segments
      rw [hsplit]
      simp [split_long_segments]
    all_goals {
      have hch := assignTimes_chained (e - seg.start)
        ((totalWords (cascadeChunks (pyStrip seg.text) max_words) : ℚ))
        (cascadeChunks (pyStrip seg.text) max_words) seg.start
      have hend : seg.start + (e - seg.start) *
          ((totalWords (cascadeChunks (pyStrip seg.text) max_words) : Nat) : ℚ) /
          ((totalWords (cascadeChunks (pyStrip seg.text) max_words) : Nat) : ℚ) = e := by
        rw [mul_div_assoc, div_self (by exact_mod_cast (by omega : totalWords
          (cascadeChunks (pyStrip seg.text) max_words) ≠ 0)), mul_one]
        ring
      rw [hend] at hch
      first
      | -- out ≠ []
        (intro hnil
         cases hcas : cascadeChunks (pyStrip seg.text) max_words with
         | nil => rw [hcas] at htwpos; simp [totalWords] at htwpos
         | cons a l => rw [hcas] at hnil; exact absurd hnil (by simp [assignTimes]))
      | exact hch
      | -- head start
        (intro s hs
         cases hcas : cascadeChunks (pyStrip seg.text) max_words with
         | nil => rw [hcas] at hs; exact absurd hs (by simp [assignTimes])
         | cons a l =>
           rw [hcas] at hs hch
           simp only [assignTimes, List.head?_cons, Option.some.injEq] at hs
           subst hs
           exact hch.1)
      | exact fun s hs => chained_last_stop _ _ _ s hch hs
      | exact chained_sum_dur _ _ _ hch
    }

/-- Witness for C2: a 13-word segment over the default budget of 12, with
both the binary64 and the exact-rational conclusions instantiated. -/
theorem C2_split_timestamps_witness :
    0 < 12 ∧ (Seg.mk "a b c d e f g h i j k l m".toList 0 (some 1)).stop = some 1 ∧
    12 < wordCount (Seg.mk "a b c d e f g h i j k l m".toList 0 (some 1)).text ∧
    ((∃ out, splitSegF (Seg.mk "a b c d e f g h i j k l m".toList 0 (some 1)) 12 =
        some out ∧
      split_long_segmentsF [Seg.mk "a b c d e f g h i j k l m".toList 0 (some 1)] 12 =
        some out ∧
      out ≠ [] ∧
      (∀ s, out.head? = some s →
        s.start = (Seg.mk "a b c d e f g h i j k l m".toList 0 (some 1)).start) ∧
      ∃ tEnd, Chained (Seg.mk "a b c d e f g h i j k l m".toList 0 (some 1)).start
          out tEnd ∧
        (out.map (fun s => s.stop.getD s.start - s.start)).sum =
          tEnd - (Seg.mk "a b c d e f g h i j k l m".toList 0 (some 1)).start) ∧
    (∃ out, splitSeg (Seg.mk "a b c d e f g h i j k l m".toList 0 (some 1)) 12 =
        some out ∧
      split_long_segments [Seg.mk "a b c d e f g h i j k l m".toList 0 (some 1)] 12 =
        some out ∧
      out ≠ [] ∧
      Chained (Seg.mk "a b c d e f g h i j k l m".toList 0 (some 1)).start out 1 ∧
      (∀ s, out.head? = some s →
        s.start = (Seg.mk "a b c d e f g h i j k l m".toList 0 (some 1)).start) ∧
      (∀ s, out.getLast? = some s → s.stop = some 1) ∧
      (out.map (fun s => s.stop.getD s.start - s.start)).sum =
        1 - (Seg.mk "a b c d e f g h i j k l m".toList 0 (some 1)).start)) :=
  ⟨by decide, rfl, by decide,
    C2_split_timestamps (Seg.mk "a b c d e f g h i j k l m".toList 0 (some 1)) 1 12
      (by decide) rfl (by decide)⟩

set_option maxRecDepth 8000 in
/-- C2 counterexample: on the reachable request with text
"One. Two. ... Thirteen." and timestamps (0, 1), the default budget of 12
splits into 13 one-word sentence chunks, and under the program's IEEE-754
binary64 arithmetic the last chunk's end is
4503599627370495/4503599627370496 — one unit in the last place short of
the original end — so the claim's sentence that the last chunk's end
equals the original end exactly (and hence that the durations sum to the
original duration) is false of the program. -/
theorem C2_counterexample :
    (split_long_segmentsF
        [Seg.mk
          "One. Two. Three. Four. Five. Six. Seven. Eight. Nine. Ten. Eleven. Twelve. Thirteen.".toList
          0 (some 1)] 12).map
      (fun out => out.getLast?.map Seg.stop) =
      some (some (some (mkRat 4503599627370495 4503599627370496))) ∧
    mkRat 4503599627370495 4503599627370496 ≠ (1 : ℚ) := by
  constructor
  · decide
  · decide

/-- C8: the Segment Splitter passes every segment whose word count is
already within the budget through unchanged, so on a sequence of
within-budget segments it returns the sequence byte-identical and a second
split changes nothing. -/
theorem C8_split_idempotent (segs : List Seg) (max_words : Nat)
    (h : ∀ seg ∈ segs, wordCount seg.text ≤ max_words) :
    split_long_segments segs max_words = some segs := by
  induction segs with
  | nil => rfl
  | cons seg rest ih =>
    have hseg : splitSeg seg max_words = some [seg] := by
      unfold splitSeg
      rw [if_pos]
      rw [pySplit_pyStrip]
      exact h seg (by simp)
    unfold split_long_segments
    rw [hseg, ih (fun s hs => h s (by simp [hs]))]
    rfl

/-- Witness for C8: two short segments pass through byte-identical. -/
theorem C8_split_idempotent_witness :
    split_long_segments
      [Seg.mk "Hello world.".toList 0 (some 1),
       Seg.mk "  How are you?  ".toList 1 none] 12 =
    some [Seg.mk "Hello world.".toList 0 (some 1),
          Seg.mk "  How are you?  ".toList 1 none] := by
  refine C8_split_idempotent _ 12 ?_
  intro seg hseg
  simp only [List.mem_cons, List.not_mem_nil, or_false] at hseg
  rcases hseg with rfl | rfl <;> decide

/-! ## Segment Assembler (backend/asr.py, `ASRProcessor._align_to_segments`)

Word items from the forced aligner are grouped into subtitle segments;
empty-after-strip items are skipped; the open buffer is flushed when the
word ends a sentence or the buffer reaches `max_words` words, and once more
at end of input. -/

/-- A `ForcedAlignItem`: word text plus chunk-relative times. -/
structure WordItem where
  text : List Char
  start_time : ℚ
  end_time : ℚ

/-- asr.py line 132: `re.search(r"[.!?]$", word)` on a stripped word is
exactly "the last character is sentence-final". -/
def endsSentence (w : List Char) : Bool :=
  match w.getLast? with
  | some c => sentenceEnd c
  | none => false

/-- The inner `flush()` (asr.py 109-117): emits one segment whose text is
the space-joined buffered words, whose start is `seg_start` and whose end
is the last buffered word's end.  `seg_start` is always `some` when the
buffer is non-empty, so the `getD 0` default is never used. -/
def flushSeg (segs : List Seg) (cur : List (List Char × ℚ × ℚ))
    (segStart : Option ℚ) : List Seg :=
  match cur with
  | [] => segs
  | w :: ws =>
      segs ++ [Seg.mk (joinSpace ((w :: ws).map (fun x => x.1)))
        (segStart.getD 0)
        (some (((w :: ws).getLast (List.cons_ne_nil w ws)).2.2))]

/-- The word loop of `_align_to_segments` (asr.py 119-136). -/
def alignGo (offset : ℚ) (max_words : Nat) :
    List WordItem → List Seg → List (List Char × ℚ × ℚ) → Option ℚ → List Seg
  | [], segs, cur, st => flushSeg segs cur st
  | item :: rest, segs, cur, st =>
      if pyStrip item.text = [] then alignGo offset max_words rest segs cur st
      else
        if endsSentence (pyStrip item.text) = true ∨
            max_words ≤ (cur ++ [(pyStrip item.text,
              item.start_time + offset, item.end_time + offset)]).length then
          alignGo offset max_words rest
            (flushSeg segs
              (cur ++ [(pyStrip item.text,
                item.start_time + offset, item.end_time + offset)])
              (if st = none then some (item.start_time + offset) else st))
            [] none
        else
          alignGo offset max_words rest segs
            (cur ++ [(pyStrip item.text,
              item.start_time + offset, item.end_time + offset)])
            (if st = none then some (item.start_time + offset) else st)

/-- asr.py `_align_to_segments`. -/
def align_to_segments (items : List WordItem) (offset : ℚ)
    (max_words : Nat) : List Seg :=
  alignGo offset max_words items [] [] none

/-- Modelled from the spec: the Segment Assembler closure rule — close the
open buffer exactly when the word's trimmed text ends with `.`, `!` or `?`,
or the buffer now holds `max_words` words, whichever occurs first, flushing
any remaining partial buffer at end of input. -/
def specGroup (max_words : Nat) : List (List Char) → List (List Char) →
    List (List (List Char))
  | [], buf => if buf = [] then [] else [buf]
  | w :: rest, buf =>
      if endsSentence w = true ∨ max_words ≤ (buf ++ [w]).length then
        (buf ++ [w]) :: specGroup max_words rest []
      else specGroup max_words rest (buf ++ [w])

/-- The word stream the assembler actually consumes: stripped texts with
empty items dropped. -/
def cleanWords (items : List WordItem) : List (List Char) :=
  (items.map (fun it => pyStrip it.text)).filter (fun w => w ≠ [])

theorem flushSeg_map_text (segs : List Seg)
    (cur : List (List Char × ℚ × ℚ)) (st : Option ℚ) (hne : cur ≠ []) :
    (flushSeg segs cur st).map Seg.text =
      segs.map Seg.text ++ [joinSpace (cur.map (fun x => x.1))] := by
  cases cur with
  | nil => exact absurd rfl hne
  | cons w ws => simp [flushSeg]

theorem alignGo_map_text (offset : ℚ) (max_words : Nat) :
    ∀ (items : List WordItem) (segs : List Seg)
      (cur : List (List Char × ℚ × ℚ)) (st : Option ℚ),
      (alignGo offset max_words items segs cur st).map Seg.text =
        segs.map Seg.text ++
          (specGroup max_words (cleanWords items)
            (cur.map (fun x => x.1))).map joinSpace := by
  intro items
  induction items with
  | nil =>
    intro segs cur st
    show (flushSeg segs cur st).map Seg.text = _
    cases cur with
    | nil => simp [cleanWords, specGroup, flushSeg]
    | cons w ws =>
      rw [flushSeg_map_text segs _ st (by simp)]
      simp [cleanWords, specGroup]
  | cons item rest ih =>
    intro segs cur st
    by_cases hempty : pyStrip item.text = []
    · rw [alignGo, if_pos hempty, ih segs cur st]
      have : cleanWords (item :: rest) = cleanWords rest := by
        simp [cleanWords, hempty]
      rw [this]
    · have hclean : cleanWords (item :: rest) =
          pyStrip item.text :: cleanWords rest := by
        simp [cleanWords, hempty]
      by_cases hcond : endsSentence (pyStrip item.text) = true ∨
          max_words ≤ (cur ++ [(pyStrip item.text,
            item.start_time + offset, item.end_time + offset)]).length
      · rw [alignGo, if_neg (by simp [hempty]), if_pos hcond]
        rw [ih _ [] none]
        rw [flushSeg_map_text segs _ _ (by simp)]
        rw [hclean]
        have hcond' : endsSentence (pyStrip item.text) = true ∨
            max_words ≤ (cur.map (fun x => x.1) ++ [pyStrip item.text]).length := by
          simpa using hcond
        rw [specGroup, if_pos hcond']
        simp
      · rw [alignGo, if_neg (by simp [hempty]), if_neg hcond]
        rw [ih segs _ _]
        rw [hclean]
        have hcond' : ¬(endsSentence (pyStrip item.text) = true ∨
            max_words ≤ (cur.map (fun x => x.1) ++ [pyStrip item.text]).length) := by
          simpa using hcond
        rw [specGroup, if_neg hcond']
        simp

/-- C5: the Segment Assembler groups the (stripped, non-empty) word stream
exactly by the rule "close when the word ends with `.`, `!` or `?`, or the
buffer reaches `max_words`, whichever first; flush the remainder at end of
input"; in particular 13 words with no punctuation and `max_words = 12`
yield exactly two segments of 12 and 1 words. -/
theorem C5_segment_assembler :
    (∀ (items : List WordItem) (offset : ℚ) (max_words : Nat),
      (align_to_segments items offset max_words).map Seg.text =
        (specGroup max_words (cleanWords items) []).map joinSpace) ∧
    ((align_to_segments
        ((List.range 13).map (fun k => WordItem.mk ['w'] (k : ℚ) ((k : ℚ) + 1)))
        0 12).map (fun s => wordCount s.text)) = [12, 1] := by
  constructor
  · intro items offset max_words
    exact alignGo_map_text offset max_words items [] [] none
  · decide

/-! ## SRT serialization (backend/subtitle.py 8-56)

`segments_to_srt` builds subtitle records (sequential index from 1, clamped
timedeltas, stripped content) and composes them; `srt_file_to_segments`
parses SRT text back into segments.  The `srt` library itself is an
external collaborator (spec §1); its compose and parse are modelled from
the spec §6 persisted-format description: blocks
`index\nHH:MM:SS,mmm --> HH:MM:SS,mmm\ncontent\n\n` in order, timedeltas
printed truncated to whole milliseconds. -/

/-- subtitle.py `_to_td`: `timedelta(seconds=max(0.0, float(seconds)))`,
the timedelta modelled as its exact total seconds. -/
def toTd (seconds : ℚ) : ℚ := max 0 seconds

/-- One `srt.Subtitle` record as produced by `segments_to_srt`. -/
structure Subtitle where
  index : Nat
  start : ℚ
  stop : ℚ
  content : List Char
deriving DecidableEq, Repr

/-- subtitle.py 19-31: `enumerate(segments, 1)`, `None` end falls back to
`start + 4.0`, content is stripped, both times are clamped. -/
def toSubtitlesFrom (i : Nat) : List Seg → List Subtitle
  | [] => []
  | seg :: rest =>
      Subtitle.mk i (toTd seg.start)
        (toTd (match seg.stop with | none => seg.start + 4 | some e => e))
        (pyStrip seg.text) :: toSubtitlesFrom (i + 1) rest

/-- The subtitle records of `segments_to_srt`. -/
def toSubtitles (segs : List Seg) : List Subtitle :=
  toSubtitlesFrom 1 segs

/-- Decimal digit character. -/
def digitChar (d : Nat) : Char :=
  match d with
  | 0 => '0' | 1 => '1' | 2 => '2' | 3 => '3' | 4 => '4'
  | 5 => '5' | 6 => '6' | 7 => '7' | 8 => '8' | _ => '9'

/-- Decimal digit value (0 for non-digits). -/
def digitVal (c : Char) : Nat :=
  match c with
  | '0' => 0 | '1' => 1 | '2' => 2 | '3' => 3 | '4' => 4
  | '5' => 5 | '6' => 6 | '7' => 7 | '8' => 8 | '9' => 9
  | _ => 0

theorem digitVal_digitChar (d : Nat) (hd : d < 10) :
    digitVal (digitChar d) = d := by
  interval_cases d <;> rfl

theorem digitChar_ne (d : Nat) :
    digitChar d ≠ ':' ∧ digitChar d ≠ ',' ∧ digitChar d ≠ '\n' ∧
    digitChar d ≠ ' ' := by
  unfold digitChar
  split <;> refine ⟨by decide, by decide, by decide, by decide⟩

/-- Decimal rendering of a natural number, most significant digit first;
the fuel `n + 1` always suffices. -/
def natDigitsAux : Nat → Nat → List Char
  | 0, _ => []
  | fuel + 1, n =>
      if n < 10 then [digitChar n]
      else natDigitsAux fuel (n / 10) ++ [digitChar (n % 10)]

/-- Python `"%d" % n`. -/
def renderNat (n : Nat) : List Char :=
  natDigitsAux (n + 1) n

/-- Decimal parsing of a digit string. -/
def parseNat (l : List Char) : Nat :=
  l.foldl (fun a c => 10 * a + digitVal c) 0

theorem natDigitsAux_ne_nil (fuel n : Nat) (h : n < fuel) :
    natDigitsAux fuel n ≠ [] := by
  cases fuel with
  | zero => omega
  | succ f =>
    rw [natDigitsAux]
    by_cases h10 : n < 10
    · rw [if_pos h10]
      simp
    · rw [if_neg h10]
      simp

theorem renderNat_ne_nil (n : Nat) : renderNat n ≠ [] :=
  natDigitsAux_ne_nil (n + 1) n (Nat.lt_succ_self n)

theorem natDigitsAux_mem (fuel n : Nat) :
    ∀ c ∈ natDigitsAux fuel n, ∃ d, c = digitChar d := by
  induction fuel generalizing n with
  | zero => simp [natDigitsAux]
  | succ f ih =>
    intro c hc
    rw [natDigitsAux] at hc
    by_cases h10 : n < 10
    · rw [if_pos h10] at hc
      simp only [List.mem_singleton] at hc
      exact ⟨n, hc⟩
    · rw [if_neg h10] at hc
      rw [List.mem_append] at hc
      rcases hc with hc | hc
      · exact ih (n / 10) c hc
      · simp only [List.mem_singleton] at hc
        exact ⟨n % 10, hc⟩

theorem renderNat_mem (n : Nat) :
    ∀ c ∈ renderNat n, ∃ d, c = digitChar d :=
  natDigitsAux_mem (n + 1) n

theorem natDigitsAux_parse (fuel : Nat) :
    ∀ (n a : Nat), n < fuel →
      (natDigitsAux fuel n).foldl (fun a c => 10 * a + digitVal c) a =
        a * 10 ^ (natDigitsAux fuel n).length + n := by
  induction fuel with
  | zero => intro n a h; omega
  | succ f ih =>
    intro n a h
    rw [natDigitsAux]
    by_cases h10 : n < 10
    · rw [if_pos h10]
      simp [digitVal_digitChar n h10]
      ring
    · rw [if_neg h10]
      rw [List.foldl_append]
      have hdiv : n / 10 < f := by
        have := Nat.div_lt_self (by omega : 0 < n) (by omega : 1 < 10)
        omega
      rw [ih (n / 10) a hdiv]
      simp only [List.foldl_cons, List.foldl_nil, List.length_append,
        List.length_singleton]
      rw [digitVal_digitChar (n % 10) (Nat.mod_lt _ (by omega))]
      have hnm := Nat.div_add_mod n 10
      rw [pow_succ]
      ring_nf
      omega

theorem parseNat_renderNat (n : Nat) : parseNat (renderNat n) = n := by
  unfold parseNat renderNat
  rw [natDigitsAux_parse (n + 1) n 0 (Nat.lt_succ_self n)]
  simp

/-- Python `"%0*d"`: zero padding to a minimum width. -/
def padNum (w n : Nat) : List Char :=
  List.replicate (w - (renderNat n).length) '0' ++ renderNat n

theorem parseNat_padNum (w n : Nat) : parseNat (padNum w n) = n := by
  unfold parseNat padNum
  rw [List.foldl_append]
  have hz : ∀ (k : Nat),
      (List.replicate k '0').foldl (fun a c => 10 * a + digitVal c) 0 = 0 := by
    intro k
    induction k with
    | zero => rfl
    | succ k ihk => simpa [List.replicate_succ]
  rw [hz]
  exact parseNat_renderNat n

theorem padNum_mem (w n : Nat) :
    ∀ c ∈ padNum w n, ∃ d, c = digitChar d := by
  intro c hc
  rw [padNum, List.mem_append] at hc
  rcases hc with hc | hc
  · rw [List.mem_replicate] at hc
    exact ⟨0, hc.2⟩
  · exact renderNat_mem n c hc

theorem padNum_ne_nil (w n : Nat) : padNum w n ≠ [] := by
  unfold padNum
  intro h
  rw [List.append_eq_nil] at h
  exact renderNat_ne_nil n h.2

/-- The timedelta truncated to whole milliseconds, as printed and re-read:
the value a timestamp round-trips to. -/
def msQ (q : ℚ) : ℚ :=
  (((⌊q * 1000⌋).toNat : Nat) : ℚ) / 1000

/-- Modelled from the spec (§6): render a non-negative timedelta as
`HH:MM:SS,mmm`, truncating to milliseconds (hours may take more than two
digits). -/
def renderTimestamp (q : ℚ) : List Char :=
  padNum 2 ((⌊q * 1000⌋).toNat / 3600000) ++ ':' ::
    (padNum 2 ((⌊q * 1000⌋).toNat % 3600000 / 60000) ++ ':' ::
      (padNum 2 ((⌊q * 1000⌋).toNat % 60000 / 1000) ++ ',' ::
        padNum 3 ((⌊q * 1000⌋).toNat % 1000)))

/-- Worker for `splitOnChar`. -/
def splitOnCharAux (sep : Char) : List Char → List Char → List (List Char)
  | [], cur => [cur.reverse]
  | c :: r, cur =>
      if c = sep then cur.reverse :: splitOnCharAux sep r []
      else splitOnCharAux sep r (c :: cur)

/-- Python `text.split(sep)` for a one-character separator. -/
def splitOnChar (sep : Char) (l : List Char) : List (List Char) :=
  splitOnCharAux sep l []

theorem splitOnCharAux_no_sep (sep : Char) :
    ∀ (x cur : List Char), sep ∉ x →
      splitOnCharAux sep x cur = [cur.reverse ++ x] := by
  intro x
  induction x with
  | nil =>
    intro cur _
    simp [splitOnCharAux]
  | cons c r ih =>
    intro cur hx
    rw [splitOnCharAux, if_neg (by rintro rfl; exact hx (by simp))]
    rw [ih (c :: cur) (fun hmem => hx (by simp [hmem]))]
    simp

theorem splitOnCharAux_append (sep : Char) :
    ∀ (x : List Char), sep ∉ x → ∀ (cur y : List Char),
      splitOnCharAux sep (x ++ sep :: y) cur =
        (cur.reverse ++ x) :: splitOnCharAux sep y [] := by
  intro x
  induction x with
  | nil =>
    intro _ cur y
    rw [List.nil_append, splitOnCharAux, if_pos rfl]
    simp
  | cons c r ih =>
    intro hx cur y
    rw [List.cons_append, splitOnCharAux,
      if_neg (by rintro rfl; exact hx (by simp))]
    rw [ih (fun hmem => hx (by simp [hmem])) (c :: cur) y]
    simp

theorem splitOnChar_two (sep : Char) (x y : List Char)
    (hx : sep ∉ x) (hy : sep ∉ y) :
    splitOnChar sep (x ++ sep :: y) = [x, y] := by
  unfold splitOnChar
  rw [splitOnCharAux_append sep x hx [] y, splitOnCharAux_no_sep sep y [] hy]
  simp

theorem splitOnChar_three (sep : Char) (x y z : List Char)
    (hx : sep ∉ x) (hy : sep ∉ y) (hz : sep ∉ z) :
    splitOnChar sep (x ++ sep :: (y ++ sep :: z)) = [x, y, z] := by
  unfold splitOnChar
  rw [splitOnCharAux_append sep x hx [] (y ++ sep :: z),
    splitOnCharAux_append sep y hy [] z,
    splitOnCharAux_no_sep sep z [] hz]
  simp

/-- Second half of timestamp parsing: the `SS,mmm` fields. -/
def parseSecMs (hh mm : List Char) : List (List Char) → ℚ
  | [ss, ms] =>
      (parseNat hh : ℚ) * 3600 + (parseNat mm : ℚ) * 60 +
        (parseNat ss : ℚ) + (parseNat ms : ℚ) / 1000
  | _ => 0

/-- First half of timestamp parsing: the `HH:MM:rest` fields. -/
def parseTsFields : List (List Char) → ℚ
  | [hh, mm, rest] => parseSecMs hh mm (splitOnChar ',' rest)
  | _ => 0

/-- Modelled from the spec (§6): read a `HH:MM:SS,mmm` timestamp back as
seconds. -/
def parseTimestamp (l : List Char) : ℚ :=
  parseTsFields (splitOnChar ':' l)

theorem padNum_not_mem (w n : Nat) (c : Char)
    (hc : c = ':' ∨ c = ',' ∨ c = '\n' ∨ c = ' ') : c ∉ padNum w n := by
  intro hmem
  obtain ⟨d, hd⟩ := padNum_mem w n c hmem
  subst hd
  have hne := digitChar_ne d
  rcases hc with hc | hc | hc | hc
  · exact hne.1 hc
  · exact hne.2.1 hc
  · exact hne.2.2.1 hc
  · exact hne.2.2.2 hc

theorem parseTimestamp_renderTimestamp (q : ℚ) :
    parseTimestamp (renderTimestamp q) = msQ q := by
  unfold renderTimestamp parseTimestamp
  rw [splitOnChar_three ':' _ _ _
    (padNum_not_mem _ _ _ (Or.inl rfl))
    (padNum_not_mem _ _ _ (Or.inl rfl)) ?hz]
  case hz =>
    intro hmem
    rw [List.mem_append] at hmem
    rcases hmem with hmem | hmem
    · exact padNum_not_mem _ _ _ (Or.inl rfl) hmem
    · simp only [List.mem_cons] at hmem
      rcases hmem with h | hmem
      · exact absurd h (by decide)
      · exact padNum_not_mem _ _ _ (Or.inl rfl) hmem
  rw [parseTsFields]
  rw [splitOnChar_two ',' _ _
    (padNum_not_mem _ _ _ (Or.inr (Or.inl rfl)))
    (padNum_not_mem _ _ _ (Or.inr (Or.inl rfl)))]
  rw [parseSecMs]
  simp only [parseNat_padNum]
  unfold msQ
  set N := (⌊q * 1000⌋).toNat with hN
  have hnat : (N / 3600000 * 3600 + N % 3600000 / 60000 * 60 +
      N % 60000 / 1000) * 1000 + N % 1000 = N := by omega
  have hq : (((N / 3600000 : Nat) : ℚ) * 3600 +
      ((N % 3600000 / 60000 : Nat) : ℚ) * 60 +
      ((N % 60000 / 1000 : Nat) : ℚ)) * 1000 + ((N % 1000 : Nat) : ℚ) =
      (N : ℚ) := by
    exact_mod_cast hnat
  field_simp
  linarith [hq]

/-- The timecode line `START --> END` of one block. -/
def tsLine (sub : Subtitle) : List Char :=
  renderTimestamp sub.start ++ ' ' :: '-' :: '-' :: '>' :: ' ' ::
    renderTimestamp sub.stop

/-- One SRT block without its terminating blank line:
`index\ntimestamps\ncontent`. -/
def blockBody (sub : Subtitle) : List Char :=
  renderNat sub.index ++ '\n' :: (tsLine sub ++ '\n' :: sub.content)

/-- Modelled from the spec (§6): the composed SRT text — the blocks in
order, each terminated by a blank line. -/
def composeSrt (subs : List Subtitle) : List Char :=
  (subs.map (fun sub => blockBody sub ++ ['\n', '\n'])).flatten

/-- subtitle.py `segments_to_srt`. -/
def segments_to_srt (segs : List Seg) : List Char :=
  composeSrt (toSubtitles segs)

theorem renderNat_no_nl (n : Nat) : '\n' ∉ renderNat n := by
  intro hmem
  obtain ⟨d, hd⟩ := renderNat_mem n '\n' hmem
  exact (digitChar_ne d).2.2.1 hd.symm

theorem renderTimestamp_not_mem (q : ℚ) (c : Char)
    (hc : c = '\n' ∨ c = ' ') : c ∉ renderTimestamp q := by
  have hpad : ∀ (w n : Nat), c ∉ padNum w n := by
    intro w n
    rcases hc with hc | hc
    · exact padNum_not_mem w n c (Or.inr (Or.inr (Or.inl hc)))
    · exact padNum_not_mem w n c (Or.inr (Or.inr (Or.inr hc)))
  have hcolon : c ≠ ':' := by rcases hc with hc | hc <;> subst hc <;> decide
  have hcomma : c ≠ ',' := by rcases hc with hc | hc <;> subst hc <;> decide
  unfold renderTimestamp
  simp only [List.mem_append, List.mem_cons]
  push_neg
  exact ⟨hpad _ _, hcolon, hpad _ _, hcolon, hpad _ _, hcomma, hpad _ _⟩

theorem tsLine_no_nl (sub : Subtitle) : '\n' ∉ tsLine sub := by
  unfold tsLine
  simp only [List.mem_append, List.mem_cons]
  push_neg
  exact ⟨renderTimestamp_not_mem sub.start '\n' (Or.inl rfl), by decide,
    by decide, by decide, by decide, by decide,
    renderTimestamp_not_mem sub.stop '\n' (Or.inl rfl)⟩

theorem tsLine_ne_nil (sub : Subtitle) : tsLine sub ≠ [] := by
  unfold tsLine renderTimestamp
  intro h
  rw [List.append_eq_nil] at h
  rw [List.append_eq_nil] at h
  exact absurd h.1.2 (by simp)

/-- Worker for `splitBlocks`: `pending` records a just-seen newline that
may open a blank-line separator. -/
def splitBlocksAux : List Char → Bool → List Char → List (List Char)
  | [], pending, cur => [(if pending then '\n' :: cur else cur).reverse]
  | c :: r, true, cur =>
      if c = '\n' then cur.reverse :: splitBlocksAux r false []
      else splitBlocksAux r false (c :: '\n' :: cur)
  | c :: r, false, cur =>
      if c = '\n' then splitBlocksAux r true cur
      else splitBlocksAux r false (c :: cur)

/-- Modelled from the spec (§6): split SRT text at blank lines. -/
def splitBlocks (l : List Char) : List (List Char) :=
  splitBlocksAux l false []

theorem splitBlocksAux_no_nl :
    ∀ (x : List Char), '\n' ∉ x → ∀ (r cur : List Char),
      splitBlocksAux (x ++ r) false cur =
        splitBlocksAux r false (x.reverse ++ cur) := by
  intro x
  induction x with
  | nil => intro _ r cur; simp
  | cons c x' ih =>
    intro hx r cur
    rw [List.cons_append, splitBlocksAux,
      if_neg (by rintro rfl; exact hx (by simp))]
    rw [ih (fun hmem => hx (by simp [hmem])) r (c :: cur)]
    simp

theorem splitBlocksAux_sep_one (w : Char) (hw : w ≠ '\n') (r cur : List Char) :
    splitBlocksAux ('\n' :: w :: r) false cur =
      splitBlocksAux r false (w :: '\n' :: cur) := by
  rw [splitBlocksAux, if_pos rfl, splitBlocksAux, if_neg hw]

theorem splitBlocksAux_sep (rest cur : List Char) :
    splitBlocksAux ('\n' :: '\n' :: rest) false cur =
      cur.reverse :: splitBlocksAux rest false [] := by
  rw [splitBlocksAux, if_pos rfl, splitBlocksAux, if_pos rfl]

theorem splitBlocksAux_block (x y z rest : List Char)
    (hx : '\n' ∉ x) (hy : '\n' ∉ y) (hz : '\n' ∉ z)
    (hyne : y ≠ []) (hzne : z ≠ []) :
    splitBlocksAux ((x ++ '\n' :: (y ++ '\n' :: z)) ++ '\n' :: '\n' :: rest)
        false [] =
      (x ++ '\n' :: (y ++ '\n' :: z)) :: splitBlocksAux rest false [] := by
  obtain ⟨w, y', rfl⟩ := List.exists_cons_of_ne_nil hyne
  obtain ⟨v, z', rfl⟩ := List.exists_cons_of_ne_nil hzne
  have hw : w ≠ '\n' := by rintro rfl; exact hy (by simp)
  have hv : v ≠ '\n' := by rintro rfl; exact hz (by simp)
  have hy' : '\n' ∉ y' := fun hmem => hy (by simp [hmem])
  have hz' : '\n' ∉ z' := fun hmem => hz (by simp [hmem])
  rw [show (x ++ '\n' :: ((w :: y') ++ '\n' :: (v :: z'))) ++ '\n' :: '\n' :: rest
      = x ++ ('\n' :: w :: (y' ++ ('\n' :: v :: (z' ++ '\n' :: '\n' :: rest))))
      from by simp]
  rw [splitBlocksAux_no_nl x hx]
  rw [splitBlocksAux_sep_one w hw]
  rw [splitBlocksAux_no_nl y' hy']
  rw [splitBlocksAux_sep_one v hv]
  rw [splitBlocksAux_no_nl z' hz']
  rw [splitBlocksAux_sep]
  simp

/-- Python `'\n'.join(lines)`. -/
def joinNl : List (List Char) → List Char
  | [] => []
  | [x] => x
  | x :: xs => x ++ '\n' :: joinNl xs

/-- Parse a split timestamp line `[start, "-->", end]`. -/
def parseArrow (contentLines : List (List Char)) :
    List (List Char) → Option Seg
  | [t1, arrow, t2] =>
      if arrow = ['-', '-', '>'] then
        some (Seg.mk (joinNl contentLines) (parseTimestamp t1)
          (some (parseTimestamp t2)))
      else none
  | _ => none

/-- Parse the lines of one block: index line (read and discarded, as
`srt_file_to_segments` keeps only content and times), timestamp line,
content lines. -/
def parseLines : List (List Char) → Option Seg
  | _ :: ts :: c0 :: crest => parseArrow (c0 :: crest) (splitOnChar ' ' ts)
  | _ => none

/-- Modelled from the spec (§6): parse one SRT block. -/
def parseBlock (b : List Char) : Option Seg :=
  parseLines (splitOnChar '\n' b)

/-- subtitle.py `srt_file_to_segments`, applied to the file's text content
(the path→text read is the file-system collaborator). -/
def srt_file_to_segments (content : List Char) : List Seg :=
  ((splitBlocks content).filter (fun b => b ≠ [])).filterMap parseBlock

theorem blockBody_ne_nil (sub : Subtitle) : blockBody sub ≠ [] := by
  unfold blockBody
  intro h
  rw [List.append_eq_nil] at h
  exact absurd h.2 (by simp)

theorem splitBlocks_composeSrt (subs : List Subtitle)
    (hcond : ∀ sub ∈ subs, '\n' ∉ sub.content ∧ sub.content ≠ []) :
    splitBlocks (composeSrt subs) = (subs.map blockBody) ++ [[]] := by
  induction subs with
  | nil => rfl
  | cons sub subs' ih =>
    unfold composeSrt at ih ⊢
    rw [List.map_cons, List.flatten_cons]
    unfold splitBlocks at ih ⊢
    rw [show blockBody sub ++ ['\n', '\n'] ++
        (subs'.map (fun s => blockBody s ++ ['\n', '\n'])).flatten =
        (renderNat sub.index ++ '\n' :: (tsLine sub ++ '\n' :: sub.content)) ++
          '\n' :: '\n' ::
          (subs'.map (fun s => blockBody s ++ ['\n', '\n'])).flatten
      from by simp [blockBody]]
    rw [splitBlocksAux_block _ _ _ _ (renderNat_no_nl _) (tsLine_no_nl _)
      (hcond sub (by simp)).1 (tsLine_ne_nil _) (hcond sub (by simp)).2]
    rw [ih (fun s hs => hcond s (by simp [hs]))]
    simp [blockBody]

theorem parseBlock_blockBody (sub : Subtitle) (hnl : '\n' ∉ sub.content)
    (hne : sub.content ≠ []) :
    parseBlock (blockBody sub) =
      some (Seg.mk sub.content (msQ sub.start) (some (msQ sub.stop))) := by
  unfold parseBlock blockBody
  rw [splitOnChar_three '\n' _ _ _ (renderNat_no_nl _) (tsLine_no_nl _) hnl]
  obtain ⟨c0, crest, hc⟩ := List.exists_cons_of_ne_nil hne
  rw [hc, parseLines, ← hc]
  unfold tsLine
  rw [show renderTimestamp sub.start ++ ' ' :: '-' :: '-' :: '>' :: ' ' ::
      renderTimestamp sub.stop =
      renderTimestamp sub.start ++ ' ' ::
        (['-', '-', '>'] ++ ' ' :: renderTimestamp sub.stop)
    from by simp]
  rw [splitOnChar_three ' ' _ _ _
    (renderTimestamp_not_mem sub.start ' ' (Or.inr rfl)) (by decide)
    (renderTimestamp_not_mem sub.stop ' ' (Or.inr rfl))]
  rw [parseArrow, if_pos rfl]
  rw [parseTimestamp_renderTimestamp, parseTimestamp_renderTimestamp]
  rfl

/-! ## Strip idempotence and round-trip lemmas -/

theorem dropWhile_head_not (p : Char → Bool) (l : List Char) :
    ∀ c, (l.dropWhile p).head? = some c → p c = false := by
  induction l with
  | nil => intro c h; simp at h
  | cons a r ih =>
    intro c h
    by_cases hp : p a = true
    · rw [List.dropWhile_cons_of_pos hp] at h
      exact ih c h
    · rw [List.dropWhile_cons_of_neg (by simp [hp])] at h
      simp only [List.head?_cons, Option.some.injEq] at h
      subst h
      simpa using hp

theorem dropWhile_eq_self_of_head (p : Char → Bool) (l : List Char)
    (h : ∀ c, l.head? = some c → p c = false) : l.dropWhile p = l := by
  cases l with
  | nil => rfl
  | cons a r => rw [List.dropWhile_cons_of_neg (by simp [h a rfl])]

theorem pyStrip_eq_self (s : List Char)
    (h1 : ∀ c, s.head? = some c → isSpace c = false)
    (h2 : ∀ c, s.getLast? = some c → isSpace c = false) : pyStrip s = s := by
  unfold pyStrip
  rw [dropWhile_eq_self_of_head _ _ h1]
  rw [dropWhile_eq_self_of_head _ _ ?hrev]
  · exact List.reverse_reverse s
  case hrev =>
    intro c hc
    rw [List.head?_reverse] at hc
    exact h2 c hc

theorem pyStrip_getLast_not_space (l : List Char) :
    ∀ c, (pyStrip l).getLast? = some c → isSpace c = false := by
  intro c hc
  unfold pyStrip at hc
  rw [List.getLast?_reverse] at hc
  exact dropWhile_head_not _ _ c hc

theorem pyStrip_head_not_space (l : List Char) :
    ∀ c, (pyStrip l).head? = some c → isSpace c = false := by
  intro c hc
  unfold pyStrip at hc
  rw [List.head?_reverse] at hc
  have hBne : List.dropWhile isSpace (List.dropWhile isSpace l).reverse ≠ [] := by
    intro hB
    rw [hB] at hc
    simp at hc
  have hlast : (List.dropWhile isSpace l).reverse.getLast? = some c := by
    conv_lhs => rw [← List.takeWhile_append_dropWhile (p := isSpace)
      (l := (List.dropWhile isSpace l).reverse)]
    rw [List.getLast?_append_of_ne_nil _ hBne]
    exact hc
  rw [List.getLast?_reverse] at hlast
  exact dropWhile_head_not _ _ c hlast

theorem pyStrip_idem (l : List Char) : pyStrip (pyStrip l) = pyStrip l :=
  pyStrip_eq_self _ (pyStrip_head_not_space l) (pyStrip_getLast_not_space l)

theorem pyStrip_mem (l : List Char) (c : Char) (h : c ∈ pyStrip l) : c ∈ l := by
  unfold pyStrip at h
  rw [List.mem_reverse] at h
  have h2 : c ∈ (List.dropWhile isSpace l).reverse :=
    (List.dropWhile_sublist _).subset h
  rw [List.mem_reverse] at h2
  exact (List.dropWhile_sublist _).subset h2

theorem msQ_nonneg (q : ℚ) : 0 ≤ msQ q := by
  unfold msQ
  positivity

theorem toTd_msQ (q : ℚ) : toTd (msQ q) = msQ q :=
  max_eq_right (msQ_nonneg q)

theorem floor_msQ (q : ℚ) : (⌊msQ q * 1000⌋).toNat = (⌊q * 1000⌋).toNat := by
  unfold msQ
  rw [div_mul_cancel₀ _ (by norm_num : (1000 : ℚ) ≠ 0)]
  rw [Int.floor_natCast, Int.toNat_natCast]

theorem renderTimestamp_msQ (q : ℚ) :
    renderTimestamp (msQ q) = renderTimestamp q := by
  unfold renderTimestamp
  rw [floor_msQ]

/-- The millisecond normalization every subtitle undergoes in one
serialize→parse→serialize cycle. -/
def normSub (sub : Subtitle) : Subtitle :=
  Subtitle.mk sub.index (msQ sub.start) (msQ sub.stop) sub.content

/-- The segment a parsed block denotes. -/
def segOf (sub : Subtitle) : Seg :=
  Seg.mk sub.content (msQ sub.start) (some (msQ sub.stop))

theorem blockBody_normSub (sub : Subtitle) :
    blockBody (normSub sub) = blockBody sub := by
  unfold blockBody normSub tsLine
  simp [renderTimestamp_msQ]

theorem composeSrt_norm (subs : List Subtitle) :
    composeSrt (subs.map normSub) = composeSrt subs := by
  unfold composeSrt
  rw [List.map_map]
  congr 1
  refine List.map_congr_left ?_
  intro sub _
  show blockBody (normSub sub) ++ _ = _
  rw [blockBody_normSub]

theorem toSubtitlesFrom_segOf (i : Nat) (segs : List Seg) :
    toSubtitlesFrom i ((toSubtitlesFrom i segs).map segOf) =
      (toSubtitlesFrom i segs).map normSub := by
  induction segs generalizing i with
  | nil => rfl
  | cons seg rest ih =>
    show toSubtitlesFrom i (segOf _ :: _) = normSub _ :: _
    rw [toSubtitlesFrom]
    rw [ih (i + 1)]
    congr 1
    simp [segOf, normSub, toTd_msQ, pyStrip_idem]

theorem toSubtitlesFrom_mem (segs : List Seg)
    (h : ∀ seg ∈ segs, pyStrip seg.text ≠ [] ∧ '\n' ∉ seg.text) :
    ∀ (i : Nat), ∀ sub ∈ toSubtitlesFrom i segs,
      '\n' ∉ sub.content ∧ sub.content ≠ [] := by
  induction segs with
  | nil => intro i sub hsub; simp [toSubtitlesFrom] at hsub
  | cons seg rest ih =>
    intro i sub hsub
    rw [toSubtitlesFrom] at hsub
    simp only [List.mem_cons] at hsub
    rcases hsub with rfl | hsub
    · refine ⟨?_, (h seg (by simp)).1⟩
      intro hmem
      exact (h seg (by simp)).2 (pyStrip_mem seg.text '\n' hmem)
    · exact ih (fun s hs => h s (by simp [hs])) (i + 1) sub hsub

theorem filterMap_eq_map_of {α β : Type} (l : List α) (f : α → Option β)
    (g : α → β) (h : ∀ a ∈ l, f a = some (g a)) : l.filterMap f = l.map g := by
  induction l with
  | nil => rfl
  | cons a r ih =>
    rw [List.filterMap_cons, h a (by simp), List.map_cons,
      ih (fun x hx => h x (by simp [hx]))]

theorem srt_parse_compose (segs : List Seg)
    (h : ∀ seg ∈ segs, pyStrip seg.text ≠ [] ∧ '\n' ∉ seg.text) :
    srt_file_to_segments (segments_to_srt segs) =
      (toSubtitles segs).map segOf := by
  unfold srt_file_to_segments segments_to_srt
  have hsubs : ∀ sub ∈ toSubtitles segs, '\n' ∉ sub.content ∧ sub.content ≠ [] :=
    toSubtitlesFrom_mem segs h 1
  rw [splitBlocks_composeSrt _ hsubs]
  rw [List.filter_append]
  have hfb : ((toSubtitles segs).map blockBody).filter (fun b => b ≠ []) =
      (toSubtitles segs).map blockBody := by
    rw [List.filter_eq_self]
    intro b hb
    rw [List.mem_map] at hb
    obtain ⟨sub, _, rfl⟩ := hb
    simpa using blockBody_ne_nil sub
  rw [hfb, show ([[]] : List (List Char)).filter (fun b => b ≠ []) = []
    from rfl, List.append_nil]
  rw [List.filterMap_map]
  refine filterMap_eq_map_of _ _ _ ?_
  intro sub hsub
  show parseBlock (blockBody sub) = some (segOf sub)
  rw [parseBlock_blockBody sub (hsubs sub hsub).1 (hsubs sub hsub).2]
  rfl

/-- C9: for every well-formed segment sequence `S` — non-blank texts with
no embedded newline — serializing to SRT, parsing back, and serializing
again yields a string equal to the first serialization. -/
theorem C9_srt_roundtrip (S : List Seg)
    (h : ∀ seg ∈ S, pyStrip seg.text ≠ [] ∧ '\n' ∉ seg.text) :
    segments_to_srt (srt_file_to_segments (segments_to_srt S)) =
      segments_to_srt S := by
  rw [srt_parse_compose S h]
  show composeSrt (toSubtitlesFrom 1 ((toSubtitlesFrom 1 S).map segOf)) = _
  rw [toSubtitlesFrom_segOf 1 S]
  exact composeSrt_norm _

/-- Witness for C9: a two-segment track round-trips. -/
theorem C9_srt_roundtrip_witness :
    segments_to_srt (srt_file_to_segments (segments_to_srt
      [Seg.mk "Hello world.".toList 0 (some (3 / 2)),
       Seg.mk "Bye.".toList (3 / 2) none])) =
    segments_to_srt
      [Seg.mk "Hello world.".toList 0 (some (3 / 2)),
       Seg.mk "Bye.".toList (3 / 2) none] := by
  refine C9_srt_roundtrip _ ?_
  intro seg hseg
  simp only [List.mem_cons, List.not_mem_nil, or_false] at hseg
  rcases hseg with rfl | rfl <;> exact ⟨by decide, by decide⟩

theorem toSubtitlesFrom_nonneg (segs : List Seg) :
    ∀ (i : Nat), ∀ sub ∈ toSubtitlesFrom i segs,
      0 ≤ sub.start ∧ 0 ≤ sub.stop := by
  induction segs with
  | nil => intro i sub hsub; simp [toSubtitlesFrom] at hsub
  | cons seg rest ih =>
    intro i sub hsub
    rw [toSubtitlesFrom] at hsub
    simp only [List.mem_cons] at hsub
    rcases hsub with rfl | hsub
    · exact ⟨le_max_left 0 _, le_max_left 0 _⟩
    · exact ih (i + 1) sub hsub

/-- C10: `_to_td` clamps every negative start or end time to zero before
serialization, so every timecode `segments_to_srt` serializes is
non-negative. -/
theorem C10_negative_clamped :
    (∀ q : ℚ, 0 ≤ toTd q ∧ (q < 0 → toTd q = 0)) ∧
    (∀ (segs : List Seg), ∀ sub ∈ toSubtitles segs,
      0 ≤ sub.start ∧ 0 ≤ sub.stop) := by
  constructor
  · intro q
    exact ⟨le_max_left 0 q, fun hq => max_eq_left (le_of_lt hq)⟩
  · intro segs sub hsub
    exact toSubtitlesFrom_nonneg segs 1 sub hsub

/-- Witness for C10: a segment with negative start and end serializes with
both timecodes clamped to zero. -/
theorem C10_negative_clamped_witness :
    0 ≤ toTd (-5) ∧ ((-5 : ℚ) < 0 → toTd (-5) = 0) ∧
    (0 ≤ (Subtitle.mk 1 (toTd (-5)) (toTd (-1)) ['H', 'i']).start ∧
      0 ≤ (Subtitle.mk 1 (toTd (-5)) (toTd (-1)) ['H', 'i']).stop) :=
  ⟨(C10_negative_clamped.1 (-5)).1, (C10_negative_clamped.1 (-5)).2,
    C10_negative_clamped.2 [Seg.mk ['H', 'i'] (-5) (some (-1))]
      (Subtitle.mk 1 (toTd (-5)) (toTd (-1)) ['H', 'i'])
      (by
        simp only [toSubtitles, toSubtitlesFrom, List.mem_singleton]
        simp only [pyStrip]
        decide)⟩

end CaptionPlayer
